/-
Verification of the RAG pipeline of `rag-system` (FastAPI backend).

This file gives a shallow embedding, in Lean 4, of the core pipeline:

* `app/services/chunking.py`  — recursive token-aware text splitter with overlap;
* `app/services/embedding.py` — batched embedding client with bounded retry;
* `app/services/rag.py`       — `vector_search` and the SSE streaming
  orchestrator `query_rag_stream`;
* `app/services/conversation.py` — message persistence and recent-history reads;
* `app/services/document.py`  — the document ingestion pipeline.

Python strings are modelled as `List Char`; the external tiktoken encoder is
modelled as an abstract `Encoding` (token = decoded text piece) together with a
`Prop`-bundle `EncodingLaws` of structural facts that a BPE tokenizer
satisfies, plus a concrete executable instance `tokModel` used for witnesses
and counterexamples.  External collaborators (OpenAI client, pgvector distance
computation, pypdf extraction) are oracles passed in as parameters.  Database
effects are modelled by explicit state passing over a `DB` record.
-/
import Mathlib

set_option maxRecDepth 20000
set_option maxHeartbeats 1000000

/-! ## §1 Strings and Python primitives -/

/-- Python `str`, modelled as a list of characters. -/
abbrev Str := List Char

/-- `Char.isWhitespace`, the model of the character class stripped by
Python's `str.strip()`. -/
def isWs (c : Char) : Bool := c.isWhitespace

/-- Python `s.strip()`: remove leading and trailing whitespace. -/
def pyStrip (s : Str) : Str :=
  ((s.dropWhile isWs).reverse.dropWhile isWs).reverse

/-- Whether `s` starts with `sep`. -/
def startsWithSep (sep s : Str) : Bool := s.take sep.length == sep

/-- Locate the first occurrence of `sep` in `s`: returns
`(text before it, text after it)`.  `none` models Python `sep not in s`. -/
def splitFirst (sep : Str) : Str → Option (Str × Str)
  | [] => none
  | c :: t =>
    if startsWithSep sep (c :: t) then some ([], (c :: t).drop sep.length)
    else
      match splitFirst sep t with
      | some (pre, post) => some (c :: pre, post)
      | none => none

/-- `splitFirst` really decomposes the string at an occurrence of `sep`. -/
theorem splitFirst_decomp {sep s pre post : Str} :
    splitFirst sep s = some (pre, post) → s = pre ++ sep ++ post := by
  induction s generalizing pre with
  | nil => intro h; simp [splitFirst] at h
  | cons c t ih =>
    intro h
    simp only [splitFirst] at h
    split at h
    · rename_i hpre
      simp only [Option.some.injEq, Prod.mk.injEq] at h
      obtain ⟨h1, h2⟩ := h
      subst h1 h2
      simp only [startsWithSep, beq_iff_eq] at hpre
      conv_lhs => rw [← List.take_append_drop sep.length (c :: t)]
      rw [hpre]; simp
    · split at h
      · rename_i pre' post' heq
        simp only [Option.some.injEq, Prod.mk.injEq] at h
        obtain ⟨h1, h2⟩ := h
        subst h2
        have := ih heq
        subst h1
        simp [this]
      · exact absurd h (by simp)

theorem splitFirst_post_lt {sep s pre post : Str} (hsep : sep ≠ [])
    (h : splitFirst sep s = some (pre, post)) : post.length < s.length := by
  have := splitFirst_decomp h
  subst this
  have : 0 < sep.length := List.length_pos.mpr hsep
  simp [List.length_append]; omega

/-- Python `s.split(sep)` for a non-empty separator (Python raises on an
empty separator; the guard returning `[s]` totalizes that unreachable case). -/
def pySplit (sep : Str) (s : Str) : List Str :=
  if _hsep : sep = [] then [s]
  else
    match _h : splitFirst sep s with
    | none => [s]
    | some (pre, post) => pre :: pySplit sep post
termination_by s.length
decreasing_by exact splitFirst_post_lt _hsep _h

/-! ## §2 Tokenizer interface (model of tiktoken)

tiktoken is an external library: it is modelled as an abstract `Encoding`
whose tokens are the decoded text pieces themselves (`decode` is
concatenation of pieces for every real BPE vocabulary). -/

/-- Abstract token encoder.  A token is represented by the text piece it
decodes to; `decode` of a token list is an arbitrary function (for real
tokenizers: concatenation). -/
structure Encoding where
  encode : Str → List Str
  decode : List Str → Str

/-- `_count_tokens(text, encoding) = len(encoding.encode(text))`
(`chunking.py`, lines 21–23). -/
def count_tokens (enc : Encoding) (s : Str) : Nat := (enc.encode s).length

/-- Structural facts about the tokenizer that the chunker's guarantees rest
on; they hold of BPE tokenizers (whitespace never ends a token that a
following word starts, stripping only removes tokens, decoding a token
slice and re-encoding cannot create tokens). -/
structure EncodingLaws (enc : Encoding) : Prop where
  encode_nil : enc.encode [] = []
  strip_le : ∀ s, count_tokens enc (pyStrip s) ≤ count_tokens enc s
  tail_recount_le : ∀ s k,
    count_tokens enc (pyStrip (enc.decode ((enc.encode s).drop k))) ≤
      ((enc.encode s).drop k).length
  join_le : ∀ a b, b ≠ [] →
    count_tokens enc (a ++ ' ' :: b) ≤ count_tokens enc a + count_tokens enc b

/-- Concrete executable tokenizer instance: each non-whitespace character is
one token carrying the whitespace run preceding it (as in BPE vocabularies,
where a space is merged into the following word's token); a trailing
whitespace run is one token.  `decode` is concatenation. -/
def tokenizeAux (pend : Str) : Str → List Str
  | [] => if pend = [] then [] else [pend]
  | c :: t =>
    if isWs c then tokenizeAux (pend ++ [c]) t
    else (pend ++ [c]) :: tokenizeAux [] t

/-- The concrete tokenizer model used for witnesses and counterexamples. -/
def tokModel : Encoding := ⟨tokenizeAux [], List.flatten⟩

/-! ## §3 The recursive splitter (`chunking.py`) -/

/-- The first separator of `seps` occurring in `s`, together with the
remaining separator tiers `separators[i+1:] if i+1 < len(separators) else
[" "]` (`chunking.py`, lines 41–44).  The `sep ≠ []` conjunct totalizes the
(unreachable) empty-separator case. -/
def findSep : List Str → Str → Option (Str × List Str)
  | [], _ => none
  | sep :: rest, s =>
    if sep ≠ [] ∧ (splitFirst sep s).isSome then
      some (sep, if rest = [] then [[' ']] else rest)
    else findSep rest s

/-- `if current.strip(): chunks.append(current.strip())`. -/
def flushChunk (current : Str) : List Str :=
  if pyStrip current = [] then [] else [pyStrip current]

/-- The greedy packing loop over `parts = text.split(separator)`
(`chunking.py`, lines 46–68).  Each part is paired with the pre-computed
result of the recursive call on it (consumed only in the oversized branch,
exactly as in the source). -/
def packParts (enc : Encoding) (chunk_size : Nat) (sep : Str) :
    List (Str × List Str) → List Str → Str → List Str
  | [], chunks, current => chunks ++ flushChunk current
  | (part, sub) :: rest, chunks, current =>
    let candidate := if current = [] then part else current ++ sep ++ part
    if count_tokens enc candidate ≤ chunk_size then
      packParts enc chunk_size sep rest chunks candidate
    else
      if chunk_size < count_tokens enc part then
        packParts enc chunk_size sep rest (chunks ++ flushChunk current ++ sub) []
      else
        packParts enc chunk_size sep rest (chunks ++ flushChunk current) part

/-- The word-level fallback `words = text.split(" ")` greedy packing
(`chunking.py`, lines 70–86).  Note: unlike `packParts` it has no oversized
check — a word exceeding `chunk_size` is kept whole. -/
def packWords (enc : Encoding) (chunk_size : Nat) :
    List Str → List Str → Str → List Str
  | [], chunks, current => chunks ++ flushChunk current
  | w :: rest, chunks, current =>
    let candidate := if current = [] then w else current ++ ' ' :: w
    if count_tokens enc candidate ≤ chunk_size then
      packWords enc chunk_size rest chunks candidate
    else
      packWords enc chunk_size rest (chunks ++ flushChunk current) w

theorem findSep_occ {seps : List Str} {s sep : Str} {remaining : List Str} :
    findSep seps s = some (sep, remaining) →
    sep ≠ [] ∧ (splitFirst sep s).isSome := by
  induction seps with
  | nil => intro h; simp [findSep] at h
  | cons x rest ih =>
    intro h
    simp only [findSep] at h
    split at h
    · rename_i hc
      simp only [Option.some.injEq, Prod.mk.injEq] at h
      obtain ⟨rfl, _⟩ := h
      exact hc
    · exact ih h

theorem pySplit_len_le {sep : Str} :
    ∀ (s : Str), ∀ p ∈ pySplit sep s, p.length ≤ s.length := by
  intro s
  induction s using pySplit.induct sep with
  | case1 x hsep => rw [pySplit, dif_pos hsep]; simp
  | case2 x hsep h =>
    rw [pySplit, dif_neg hsep, h]; simp
  | case3 x hsep pre post h ih =>
    rw [pySplit, dif_neg hsep, h]
    intro p hp
    have hx := splitFirst_decomp h
    rcases List.mem_cons.mp hp with rfl | hmem
    · subst hx; simp [List.length_append]
    · have h1 := ih p hmem
      have hlen : 0 < sep.length := List.length_pos.mpr hsep
      subst hx; simp [List.length_append] at h1 ⊢; omega

theorem pySplit_len_lt {sep s : Str} (hsep : sep ≠ [])
    (hocc : (splitFirst sep s).isSome) :
    ∀ p ∈ pySplit sep s, p.length < s.length := by
  intro p hp
  match hsf : splitFirst sep s with
  | none => rw [hsf] at hocc; simp at hocc
  | some (pre, post) =>
    rw [pySplit, dif_neg hsep, hsf] at hp
    have hx := splitFirst_decomp hsf
    have hlen : 0 < sep.length := List.length_pos.mpr hsep
    rcases List.mem_cons.mp hp with rfl | hmem
    · subst hx; simp [List.length_append]; omega
    · have h1 := pySplit_len_le post p hmem
      subst hx; simp [List.length_append]; omega

/-- `_split_text(text, separators, chunk_size, encoding)` (`chunking.py`,
lines 26–86): recursively split by the first present separator tier,
greedily pack segments, recurse into oversized segments with the remaining
tiers, falling back to word-level packing when no separator occurs. -/
def splitTextRec (enc : Encoding) (chunk_size : Nat) (seps : List Str)
    (s : Str) : List Str :=
  if pyStrip s = [] then []
  else if count_tokens enc s ≤ chunk_size then
    if pyStrip s = [] then [] else [pyStrip s]
  else
    match _h : findSep seps s with
    | some (sep, remaining) =>
      let parts := pySplit sep s
      let pairs := parts.attach.map (fun p =>
        (p.1, if chunk_size < count_tokens enc p.1
              then splitTextRec enc chunk_size remaining p.1 else []))
      packParts enc chunk_size sep pairs [] []
    | none => packWords enc chunk_size (pySplit [' '] s) [] []
termination_by s.length
decreasing_by
  obtain ⟨hsep, hocc⟩ := findSep_occ _h
  exact pySplit_len_lt hsep hocc p.1 p.2

/-- Prepend the decoded trailing `chunk_overlap` tokens of the previous raw
chunk (`chunking.py`, lines 99–109, loop body). -/
def applyOverlapOne (enc : Encoding) (chunk_overlap : Nat) (prev cur : Str) :
    Str :=
  let prev_tokens := enc.encode prev
  let overlap_tokens :=
    if chunk_overlap < prev_tokens.length then
      prev_tokens.drop (prev_tokens.length - chunk_overlap)
    else prev_tokens
  let overlap_text := pyStrip (enc.decode overlap_tokens)
  if overlap_text = [] then cur else overlap_text ++ ' ' :: cur

/-- `_apply_overlap(raw_chunks, chunk_overlap, encoding)` (`chunking.py`,
lines 89–111).  `chunk_overlap` is kept in `Nat` (the claims quantify over
`overlap_tokens ≥ 0`; Python's `chunk_overlap <= 0` guard becomes `= 0`). -/
def apply_overlap (enc : Encoding) (raw_chunks : List Str)
    (chunk_overlap : Nat) : List Str :=
  if chunk_overlap = 0 ∨ raw_chunks.length ≤ 1 then raw_chunks
  else
    match raw_chunks with
    | [] => []
    | first :: rest =>
      first :: (raw_chunks.zip rest).map
        (fun pc => applyOverlapOne enc chunk_overlap pc.1 pc.2)

/-- The separator priority list of `split_text` (`chunking.py`, line 136). -/
def separators : List Str :=
  ["\n\n".toList, "\n".toList, ". ".toList, "! ".toList, "? ".toList,
   "; ".toList, ", ".toList, " ".toList]

/-- A produced chunk (`chunking.py`, lines 12–18). -/
structure Chunk where
  content : Str
  chunk_index : Nat
  token_count : Nat
deriving DecidableEq

/-- `split_text(text, chunk_size, chunk_overlap)` (`chunking.py`, lines
114–152): raw recursive split, overlap pass, then re-index and count. -/
def split_text (enc : Encoding) (text : Str) (chunk_size chunk_overlap : Nat) :
    List Chunk :=
  let raw_chunks := splitTextRec enc chunk_size separators text
  let overlapped_chunks := apply_overlap enc raw_chunks chunk_overlap
  overlapped_chunks.enum.map
    (fun ic => ⟨ic.2, ic.1, count_tokens enc ic.2⟩)

/-- The separator-free atoms of `s`: the segments left after splitting by
every separator tier in order and finally by a single space.  (Used to state
the amended chunk-size bound: the splitter can never decompose below this
granularity.) -/
def atoms : List Str → Str → List Str
  | [], s => [s]
  | sep :: rest, s => ((pySplit sep s).map (atoms rest)).flatten

/-! ## §4 Embedding client (`embedding.py`)

The OpenAI embeddings endpoint is an oracle: for each batch it yields, per
attempt number, either a vector list, a transient error
(`APIConnectionError`/`APITimeoutError`/`RateLimitError`) or a fatal one. -/

/-- An embedding vector (provider-side floats, modelled as rationals). -/
abbrev Vec := List ℚ

/-- Outcome of one provider call attempt for a batch. -/
inductive AttemptR where
  | ok (vectors : List Vec)
  | transient
  | fatal
deriving DecidableEq

/-- Errors surfaced by the embedding client: a tenacity `RetryError` after
exhausting attempts, or an immediately re-raised non-transient error. -/
inductive EmbedErr where
  | retryExhausted
  | apiError
deriving DecidableEq

/-- The tenacity wrapper `stop_after_attempt(3)` +
`retry_if_exception_type(transient)` around one `_embed_batch` call
(`embedding.py`, lines 42–55): try attempts in order; a transient error on
the final attempt becomes `RetryError`; a non-transient error re-raises at
once. -/
def runRetry (attempt : Nat → AttemptR) : Nat → Nat → Except EmbedErr (List Vec)
  | 0, _ => .error .retryExhausted
  | remaining + 1, i =>
    match attempt i with
    | .ok vectors => .ok vectors
    | .fatal => .error .apiError
    | .transient =>
      if remaining = 0 then .error .retryExhausted
      else runRetry attempt remaining (i + 1)

/-- The batch partition `texts[i : i + batch_size]` for
`i in range(0, len(texts), batch_size)` (`embedding.py`, lines 67–68). -/
def batchesOf (n : Nat) (l : List (Str)) : List (List Str) :=
  if l = [] then []
  else if n = 0 then []
  else l.take n :: batchesOf n (l.drop n)
termination_by l.length
decreasing_by
  rename_i h hn
  have h1 : 0 < l.length := List.length_pos.mpr h
  have h2 : 0 < n := Nat.pos_of_ne_zero hn
  simp [List.length_drop]; omega

/-- Sequentially embed the batches, propagating the first failure
(`embedding.py`, lines 67–72: later batches are not attempted once one
batch raises). -/
def embedBatches (oracle : List Str → Nat → AttemptR) :
    List (List Str) → Except EmbedErr (List Vec)
  | [] => .ok []
  | b :: rest =>
    match runRetry (oracle b) 3 0 with
    | .error e => .error e
    | .ok vectors =>
      match embedBatches oracle rest with
      | .error e => .error e
      | .ok tail => .ok (vectors ++ tail)

/-- `embed_texts(texts)` (`embedding.py`, lines 58–72): partition into
batches of 100 and embed each batch with retry, concatenating results. -/
def embed_texts (oracle : List Str → Nat → AttemptR) (texts : List Str) :
    Except EmbedErr (List Vec) :=
  embedBatches oracle (batchesOf 100 texts)

/-! ## §5 Relational store and vector search (`rag.py`, lines 36–64)

The store mirrors the `documents`, `document_chunks`, `conversations` and
`messages` tables.  pgvector's `cosine_distance` is an oracle `dist`
parameter: the SQL `ORDER BY distance LIMIT k` is modelled by a
deterministic insertion sort on the computed distance column. -/

/-- A `documents` row (`models/document.py`). -/
structure DocumentR where
  id : Nat
  user_id : Nat
  filename : String
  file_type : String
  file_size : Nat
  content : Str
  chunk_count : Nat
deriving DecidableEq

/-- A `document_chunks` row (`models/document.py`).  `embedding` is
nullable. -/
structure ChunkR where
  id : Nat
  document_id : Nat
  content : Str
  chunk_index : Nat
  token_count : Nat
  embedding : Option Vec
deriving DecidableEq

/-- A `sources` entry as serialized into the SSE `sources` event and the
assistant message (`schemas/chat.py` `SourceChunk`). -/
structure SourceChunk where
  document_id : Nat
  filename : String
  chunk_index : Nat
  content : Str
  score : ℚ
deriving DecidableEq

/-- A `messages` row (`models/conversation.py`).  `created_at` is a logical
timestamp. -/
structure MessageR where
  conversation_id : Nat
  role : String
  content : Str
  sources : Option (List SourceChunk)
  prompt_tokens : Option Nat
  completion_tokens : Option Nat
  created_at : Nat
deriving DecidableEq

/-- A `conversations` row. -/
structure ConversationR where
  id : Nat
  user_id : Nat
  title : Str
deriving DecidableEq

/-- The relational store.  `nextId` feeds fresh primary keys, `clock` feeds
`created_at` timestamps. -/
structure DB where
  documents : List DocumentR
  chunks : List ChunkR
  conversations : List ConversationR
  messages : List MessageR
  nextId : Nat
  clock : Nat
deriving DecidableEq

/-- Python `round(x, 4)` on the similarity score (model rounds half up;
claims do not depend on tie behavior). -/
def round4 (x : ℚ) : ℚ := (⌊x * 10000 + 1 / 2⌋ : ℚ) / 10000

/-- The rows produced by the `SELECT ... JOIN documents ... WHERE
documents.user_id = :user AND document_chunks.embedding IS NOT NULL`
query of `vector_search` (`rag.py`, lines 48–55), with the computed
`distance` column. -/
def eligibleRows (db : DB) (dist : Vec → Vec → ℚ) (query_embedding : Vec)
    (user_id : Nat) : List (ChunkR × ℚ × String) :=
  db.chunks.filterMap (fun ch =>
    match ch.embedding with
    | none => none
    | some e =>
      match db.documents.find? (fun d => d.id == ch.document_id) with
      | none => none
      | some doc =>
        if doc.user_id == user_id then some (ch, dist e query_embedding, doc.filename)
        else none)

/-- `vector_search(db, query_embedding, user_id, top_k, max_distance)`
(`rag.py`, lines 36–64): restrict to the user's embedded chunks, optionally
filter `distance <= max_distance`, order by distance ascending, take
`top_k`. -/
def vector_search (db : DB) (dist : Vec → Vec → ℚ) (query_embedding : Vec)
    (user_id : Nat) (top_k : Nat) (max_distance : Option ℚ) :
    List (ChunkR × ℚ × String) :=
  let rows := eligibleRows db dist query_embedding user_id
  let rows :=
    match max_distance with
    | some m => rows.filter (fun r => r.2.1 ≤ m)
    | none => rows
  (List.insertionSort (fun a b => a.2.1 ≤ b.2.1) rows).take top_k

/-! ## §6 Conversation service and the streaming orchestrator (`rag.py`) -/

/-- The configuration surface consumed by the pipeline (`config.py` plus the
retrieval max-distance threshold and history window size read by `rag.py`). -/
structure SettingsR where
  VECTOR_SEARCH_TOP_K : Nat
  VECTOR_SEARCH_MAX_DISTANCE : Option ℚ
  CHAT_HISTORY_MESSAGES : Nat
  CHUNK_SIZE : Nat
  CHUNK_OVERLAP : Nat
  MAX_UPLOAD_FILE_SIZE : Nat

/-- `create_conversation` (`conversation.py`, lines 14–23). -/
def create_conversation (db : DB) (user_id : Nat) (title : Str) :
    ConversationR × DB :=
  let conversation : ConversationR := ⟨db.nextId, user_id, title⟩
  (conversation,
   { db with conversations := db.conversations ++ [conversation],
             nextId := db.nextId + 1 })

/-- `add_message` (`conversation.py`, lines 133–153); `created_at` is the
store clock. -/
def add_message (db : DB) (conversation_id : Nat) (role : String)
    (content : Str) (sources : Option (List SourceChunk))
    (prompt_tokens completion_tokens : Option Nat) : MessageR × DB :=
  let message : MessageR :=
    ⟨conversation_id, role, content, sources, prompt_tokens,
     completion_tokens, db.clock⟩
  (message,
   { db with messages := db.messages ++ [message], clock := db.clock + 1 })

/-- `get_recent_messages` (`conversation.py`, lines 115–130): filter by
conversation, order by `created_at` descending, take `limit`, then reverse
into chronological order. -/
def get_recent_messages (db : DB) (conversation_id : Nat) (limit : Nat) :
    List MessageR :=
  let rows := db.messages.filter (fun m => m.conversation_id == conversation_id)
  ((List.insertionSort (fun a b => b.created_at ≤ a.created_at) rows).take
      limit).reverse

/-- One SSE event of the produced stream (`rag.py` docstring, lines 76–82). -/
inductive Event where
  | conversation_id (id : Nat)
  | sources (srcs : List SourceChunk)
  | delta (text : Str)
  | usage (prompt_tokens completion_tokens total_tokens : Nat)
  | done (full_text : Str)
  | error (detail : String)
deriving DecidableEq

/-- `choices[0].delta` of a provider stream chunk. -/
structure ChoiceDelta where
  content : Option Str
deriving DecidableEq

/-- The usage-accounting payload of a provider stream chunk. -/
structure UsageInfo where
  prompt_tokens : Nat
  completion_tokens : Nat
  total_tokens : Nat
deriving DecidableEq

/-- One chunk of the provider's streaming response. -/
structure StreamChunkR where
  choices : List ChoiceDelta
  usage : Option UsageInfo
deriving DecidableEq

/-- Outcome of the `client.chat.completions.create(..., stream=True)` call:
either it raises (`OpenAIError`/`RetryError`, caught at `rag.py` lines
170–173), or it yields a stream.  `midError = true` means the provider
raised an exception while iterating, after delivering `chunks`; `rag.py`
has no handler around the iteration loop, so that exception propagates out
of the generator. -/
inductive GenResult where
  | createError
  | stream (chunks : List StreamChunkR) (midError : Bool)
deriving DecidableEq

/-- The events the loop body (`rag.py`, lines 178–195) emits for one
provider chunk: a `delta` for non-empty content of the first choice, then a
`usage` event if the chunk carries usage. -/
def chunkEvents (c : StreamChunkR) : List Event :=
  (match c.choices with
   | [] => []
   | d :: _ =>
     match d.content with
     | some t => if t = [] then [] else [Event.delta t]
     | none => []) ++
  (match c.usage with
   | some u => [Event.usage u.prompt_tokens u.completion_tokens u.total_tokens]
   | none => [])

/-- The accumulating state of the loop (`rag.py`, lines 175–195):
`full_text`, `prompt_tokens`, `completion_tokens`. -/
def streamAccum (acc : Str × Option Nat × Option Nat) :
    List StreamChunkR → Str × Option Nat × Option Nat
  | [] => acc
  | c :: rest =>
    let acc1 :=
      match c.choices with
      | [] => acc
      | d :: _ =>
        match d.content with
        | some t => if t = [] then acc else (acc.1 ++ t, acc.2)
        | none => acc
    let acc2 :=
      match c.usage with
      | some u => (acc1.1, some u.prompt_tokens, some u.completion_tokens)
      | none => acc1
    streamAccum acc2 rest

/-- `"Failed to process your query. Please try again."` (`rag.py`, line 103). -/
def embedErrorDetail : String := "Failed to process your query. Please try again."

/-- `"Failed to generate response. Please try again."` (`rag.py`, line 172). -/
def genErrorDetail : String := "Failed to generate response. Please try again."

/-- The canned no-match answer (`rag.py`, lines 116–118). -/
def noResultMsg : Str :=
  "I couldn't find any relevant information in your documents to answer this question.".toList

/-- `SYSTEM_PROMPT` up to the `{context}` placeholder (`rag.py`, lines 22–27). -/
def systemPromptPre : Str :=
  ("You are a helpful assistant that answers questions based on the provided context.\n" ++
   "Use ONLY the context below to answer the question. If the context doesn't contain enough information,\n" ++
   "say so clearly. Do not make up information.\n\nContext:\n").toList

/-- `SYSTEM_PROMPT.format(context=context)`. -/
def systemPrompt (context : Str) : Str := systemPromptPre ++ context

/-- `f"[{filename} - chunk {chunk.chunk_index}]\n{chunk.content}"`
(`rag.py`, line 130). -/
def contextPart (filename : String) (chunk : ChunkR) : Str :=
  '[' :: filename.toList ++ " - chunk ".toList ++
    (Nat.repr chunk.chunk_index).toList ++ ']' :: '\n' :: chunk.content

/-- `"\n\n---\n\n".join(context_parts)` (`rag.py`, line 143). -/
def buildContext (results : List (ChunkR × ℚ × String)) : Str :=
  List.intercalate "\n\n---\n\n".toList
    (results.map (fun r => contextPart r.2.2 r.1))

/-- Serialization of one retrieved match into a `SourceChunk`
(`rag.py`, lines 128–139): `score = round(1.0 - distance, 4)`. -/
def mkSource (r : ChunkR × ℚ × String) : SourceChunk :=
  ⟨r.1.document_id, r.2.2, r.1.chunk_index, r.1.content, round4 (1 - r.2.1)⟩

/-- The observable outcome of one `query_rag_stream` invocation: the SSE
events yielded, the final store, whether the generator terminated by an
uncaught exception, whether the generative model was invoked, and the
message list passed to it (when built). -/
structure RagOutcome where
  events : List Event
  db : DB
  raised : Bool
  calledLLM : Bool
  llmInput : Option (List (String × Str))
deriving DecidableEq

/-- `query_rag_stream(db, question, user_id, top_k, conversation_id)`
(`rag.py`, lines 67–209).  External effects are oracles: `dist` is
pgvector's cosine distance, `embedRes` the outcome of `embed_text
(question)`, `genRes` the outcome of the streaming chat-completion call. -/
def query_rag_stream (cfg : SettingsR) (dist : Vec → Vec → ℚ) (db0 : DB)
    (question : Str) (user_id : Nat) (top_k? : Option Nat)
    (conversation_id? : Option Nat) (embedRes : Except Unit Vec)
    (genRes : GenResult) : RagOutcome :=
  let top_k := top_k?.getD cfg.VECTOR_SEARCH_TOP_K
  let resolved :=
    match conversation_id? with
    | some cid => (cid, db0)
    | none =>
      let r := create_conversation db0 user_id (question.take 50)
      (r.1.id, r.2)
  let conversation_id := resolved.1
  let events0 := [Event.conversation_id conversation_id]
  let db1 := (add_message resolved.2 conversation_id "user" question
      none none none).2
  match embedRes with
  | .error _ =>
    ⟨events0 ++ [.error embedErrorDetail], db1, false, false, none⟩
  | .ok query_embedding =>
    let results := vector_search db1 dist query_embedding user_id top_k
        cfg.VECTOR_SEARCH_MAX_DISTANCE
    if results = [] then
      let db2 := (add_message db1 conversation_id "assistant" noResultMsg
          none none none).2
      ⟨events0 ++ [.sources [], .delta noResultMsg, .done noResultMsg],
       db2, false, false, none⟩
    else
      let sources := results.map mkSource
      let events1 := events0 ++ [Event.sources sources]
      let recent := get_recent_messages db1 conversation_id
          cfg.CHAT_HISTORY_MESSAGES
      let history := recent.filter
          (fun m => m.content != question || m.role != "user")
      let messages : List (String × Str) :=
        ("system", systemPrompt (buildContext results)) ::
          history.map (fun m => (m.role, m.content)) ++ [("user", question)]
      match genRes with
      | .createError =>
        ⟨events1 ++ [.error genErrorDetail], db1, false, true, some messages⟩
      | .stream chunks midError =>
        let streamEvents := (chunks.map chunkEvents).flatten
        let acc := streamAccum ([], none, none) chunks
        if midError then
          ⟨events1 ++ streamEvents, db1, true, true, some messages⟩
        else
          let db2 := (add_message db1 conversation_id "assistant" acc.1
              (some sources) acc.2.1 acc.2.2).2
          ⟨events1 ++ streamEvents ++ [.done acc.1], db2, false, true,
           some messages⟩

/-! ## §7 Document ingestion (`document.py`) -/

/-- The `DocumentProcessingError` cases raised by `ingest_document`, plus
the propagated embedding failure (an `OpenAIError`/`RetryError`, not a
`DocumentProcessingError`, but equally raised before any write). -/
inductive DocErr where
  | unsupportedType
  | tooLarge
  | notUtf8
  | noText
  | noChunks
  | embedFailed (e : EmbedErr)
deriving DecidableEq

/-- An uploaded file.  `size = len(await file.read())`; `pdfText` is the
pypdf extraction oracle result; `utf8Text` the `bytes.decode("utf-8")`
oracle result. -/
structure UploadFileR where
  filename : Option String
  size : Nat
  pdfText : Str
  utf8Text : Except Unit Str

/-- `PurePath(name).suffix` on a path component: the part of the final
component from its last dot, empty when the dot is leading, trailing or
absent. -/
def pathSuffix (name : Str) : Str :=
  match name.reverse.findIdx? (fun c => c == '.') with
  | none => []
  | some j =>
    let i := name.length - 1 - j
    if 0 < i ∧ i < name.length - 1 then name.drop i else []

/-- `_get_file_type(filename) = PurePath(filename).suffix.lower()`
(`document.py`, lines 70–72). -/
def get_file_type (filename : String) : String :=
  let base := (pySplit ['/'] filename.toList).getLastD filename.toList
  String.mk ((pathSuffix base).map Char.toLower)

/-- `SUPPORTED_TYPES = {".txt", ".md", ".pdf"}` (`document.py`, line 20). -/
def SUPPORTED_TYPES : List String := [".txt", ".md", ".pdf"]

/-- The `_CONTROL_CHAR_TABLE` translation (`document.py`, lines 24–26):
drop C0 control characters except tab, newline, carriage return, plus DEL. -/
def stripControlChars (s : Str) : Str :=
  s.filter (fun c =>
    !((c.toNat < 32 && c != '\t' && c != '\n' && c != '\r') || c.toNat == 127))

/-- `ingest_document(db, file, user_id)` (`document.py`, lines 75–153):
validate type and size, extract text, strip control characters, reject
empty text, chunk, embed every chunk, and only then persist the document
row followed by its chunk rows (all embeddings attached).  Returns the new
document id or the error, together with the resulting store. -/
def ingest_document (cfg : SettingsR) (enc : Encoding)
    (embedOracle : List Str → Nat → AttemptR) (db : DB) (file : UploadFileR)
    (user_id : Nat) : Except DocErr Nat × DB :=
  let filename := file.filename.getD "unknown"
  let file_type := get_file_type filename
  if ¬ (SUPPORTED_TYPES.contains file_type) then (.error .unsupportedType, db)
  else if cfg.MAX_UPLOAD_FILE_SIZE < file.size then (.error .tooLarge, db)
  else
    match (if file_type = ".pdf" then Except.ok file.pdfText else file.utf8Text) with
    | .error _ => (.error .notUtf8, db)
    | .ok rawText =>
      let text := stripControlChars rawText
      if pyStrip text = [] then (.error .noText, db)
      else
        let chunks := split_text enc text cfg.CHUNK_SIZE cfg.CHUNK_OVERLAP
        if chunks = [] then (.error .noChunks, db)
        else
          match embed_texts embedOracle (chunks.map (fun c => c.content)) with
          | .error e => (.error (.embedFailed e), db)
          | .ok embeddings =>
            let document : DocumentR :=
              ⟨db.nextId, user_id, filename, file_type, file.size, text,
               chunks.length⟩
            let db1 := { db with documents := db.documents ++ [document],
                                 nextId := db.nextId + 1 }
            let rows := (chunks.zip embeddings).enum.map (fun ie =>
              ChunkR.mk (db1.nextId + ie.1) document.id ie.2.1.content
                ie.2.1.chunk_index ie.2.1.token_count (some ie.2.2))
            let db2 := { db1 with chunks := db1.chunks ++ rows,
                                  nextId := db1.nextId + rows.length }
            (.ok document.id, db2)

/-! ## §8 General lemmas -/

theorem nodup_map_inj {α β : Type} {f : α → β} {l : List α}
    (h : (l.map f).Nodup) {a b : α} (ha : a ∈ l) (hb : b ∈ l)
    (hf : f a = f b) : a = b := by
  induction l with
  | nil => cases ha
  | cons x t ih =>
    simp only [List.map_cons, List.nodup_cons] at h
    rcases List.mem_cons.mp ha with rfl | ha' <;>
      rcases List.mem_cons.mp hb with rfl | hb'
    · rfl
    · exact absurd (hf ▸ List.mem_map_of_mem f hb') h.1
    · exact absurd (hf ▸ List.mem_map_of_mem f ha') h.1
    · exact ih h.2 ha' hb'

/-! ## §9 Embedding client: claims about `embed_texts` -/

theorem runRetry_ok {f : Nat → AttemptR} {r i : Nat} {vs : List Vec}
    (h : runRetry f r i = .ok vs) : ∃ j, f j = .ok vs := by
  induction r generalizing i with
  | zero => simp [runRetry] at h
  | succ r ih =>
    cases hf : f i with
    | ok v =>
      rw [runRetry, hf] at h
      simp only [Except.ok.injEq] at h
      exact ⟨i, by rw [hf, h]⟩
    | fatal =>
      rw [runRetry, hf] at h
      simp at h
    | transient =>
      rw [runRetry, hf] at h
      by_cases hr : r = 0
      · rw [if_pos hr] at h; simp at h
      · rw [if_neg hr] at h; exact ih h

theorem batchesOf_flatten {n : Nat} (hn : 0 < n) :
    ∀ l : List Str, (batchesOf n l).flatten = l := by
  intro l
  induction l using batchesOf.induct n with
  | case1 => rw [batchesOf]; simp
  | case2 l hl hn0 => omega
  | case3 l hl hn0 ih =>
    rw [batchesOf, if_neg hl, if_neg hn0]
    simp [ih]

theorem embedBatches_ok_length {oracle : List Str → Nat → AttemptR}
    (hlen : ∀ b i vs, oracle b i = .ok vs → vs.length = b.length) :
    ∀ (bs : List (List Str)) (out : List Vec),
      embedBatches oracle bs = .ok out → out.length = bs.flatten.length := by
  intro bs
  induction bs with
  | nil => intro out h; simp [embedBatches] at h; simp [← h]
  | cons b rest ih =>
    intro out h
    rw [embedBatches] at h
    match h1 : runRetry (oracle b) 3 0 with
    | .error e => rw [h1] at h; simp at h
    | .ok vs =>
      rw [h1] at h
      match h2 : embedBatches oracle rest with
      | .error e => rw [h2] at h; simp at h
      | .ok tail =>
        rw [h2] at h
        simp only [Except.ok.injEq] at h
        obtain ⟨j, hj⟩ := runRetry_ok h1
        have := hlen b j vs hj
        subst h
        simp [List.length_append, this, ih tail h2]

theorem embedBatches_err {oracle : List Str → Nat → AttemptR} :
    ∀ (bs : List (List Str)) (b : List Str), b ∈ bs →
      (∃ e, runRetry (oracle b) 3 0 = .error e) →
      ∃ e, embedBatches oracle bs = .error e := by
  intro bs
  induction bs with
  | nil => intro b hb; cases hb
  | cons x rest ih =>
    intro b hb ⟨e, he⟩
    rw [embedBatches]
    rcases List.mem_cons.mp hb with rfl | hb'
    · rw [he]; exact ⟨e, rfl⟩
    · match h1 : runRetry (oracle x) 3 0 with
      | .error e' => exact ⟨e', rfl⟩
      | .ok vs =>
        obtain ⟨e', he'⟩ := ih b hb' ⟨e, he⟩
        rw [he']
        exact ⟨e', rfl⟩

/-- C8.  `embed_texts` is length- and order-preserving on every success
path (given the provider contract of one vector per input), and a batch
that exhausts its retries fails the whole call: no batch is silently
skipped. -/
theorem embed_texts_length_and_failure (oracle : List Str → Nat → AttemptR)
    (texts : List Str)
    (hlen : ∀ b i vs, oracle b i = .ok vs → vs.length = b.length) :
    (∀ out, embed_texts oracle texts = .ok out → out.length = texts.length) ∧
    (∀ b, b ∈ batchesOf 100 texts →
      (∃ e, runRetry (oracle b) 3 0 = .error e) →
      ∃ e, embed_texts oracle texts = .error e) := by
  constructor
  · intro out h
    have := embedBatches_ok_length hlen (batchesOf 100 texts) out h
    rwa [batchesOf_flatten (by norm_num) texts] at this
  · intro b hb hfail
    exact embedBatches_err (batchesOf 100 texts) b hb hfail

/-- Concrete provider oracle used by the C8 witness: always succeeds with
one zero vector per input. -/
def wOracle : List Str → Nat → AttemptR :=
  fun b _ => .ok (b.map (fun _ => [(0 : ℚ)]))

/-- Witness for C8 at a concrete input. -/
theorem embed_texts_length_and_failure_witness :
    (∀ out, embed_texts wOracle ["a".toList, "b".toList] = .ok out →
      out.length = ["a".toList, "b".toList].length) ∧
    (∀ b, b ∈ batchesOf 100 ["a".toList, "b".toList] →
      (∃ e, runRetry (wOracle b) 3 0 = .error e) →
      ∃ e, embed_texts wOracle ["a".toList, "b".toList] = .error e) :=
  embed_texts_length_and_failure wOracle ["a".toList, "b".toList]
    (by intro b i vs h; simp only [wOracle, AttemptR.ok.injEq] at h; subst h; simp)

/-! ## §10 Vector search: claims about `vector_search` -/

theorem mem_eligibleRows {db : DB} {dist : Vec → Vec → ℚ} {q : Vec}
    {user : Nat} {r : ChunkR × ℚ × String}
    (hr : r ∈ eligibleRows db dist q user) :
    r.1 ∈ db.chunks ∧ r.1.embedding.isSome ∧
      ∃ doc, db.documents.find? (fun d => d.id == r.1.document_id) = some doc ∧
        doc.user_id = user := by
  simp only [eligibleRows, List.mem_filterMap] at hr
  obtain ⟨ch, hch, hf⟩ := hr
  cases hemb : ch.embedding with
  | none => simp [hemb] at hf
  | some e =>
    simp only [hemb] at hf
    cases hfind : db.documents.find? (fun d => d.id == ch.document_id) with
    | none => simp [hfind] at hf
    | some doc =>
      simp only [hfind] at hf
      by_cases hu : doc.user_id == user
      · rw [if_pos hu] at hf
        simp only [Option.some.injEq] at hf
        subst hf
        exact ⟨hch, by simp [hemb], doc, hfind, by simpa using hu⟩
      · rw [if_neg hu] at hf; simp at hf

theorem mem_vector_search {db : DB} {dist : Vec → Vec → ℚ} {q : Vec}
    {user top_k : Nat} {maxd : Option ℚ} {r : ChunkR × ℚ × String}
    (hr : r ∈ vector_search db dist q user top_k maxd) :
    r ∈ eligibleRows db dist q user ∧ (∀ m, maxd = some m → r.2.1 ≤ m) := by
  unfold vector_search at hr
  have h1 := List.take_subset _ _ hr
  have h2 := ((List.perm_insertionSort _ _).mem_iff).mp h1
  cases maxd with
  | none => exact ⟨h2, by intro m hm; cases hm⟩
  | some m =>
    simp only [List.mem_filter] at h2
    refine ⟨h2.1, ?_⟩
    intro m' hm'
    injection hm' with hm'
    subst hm'
    simpa using h2.2

/-- C4.  `vector_search` never returns a chunk without an embedding, and
(under the primary-key invariant that document ids are unique) never
returns a chunk whose owning document belongs to a different user. -/
theorem vector_search_owner_embedding (db : DB) (dist : Vec → Vec → ℚ)
    (q : Vec) (user top_k : Nat) (maxd : Option ℚ)
    (hids : (db.documents.map (fun d => d.id)).Nodup) :
    ∀ r ∈ vector_search db dist q user top_k maxd,
      r.1.embedding.isSome ∧
      ∀ d ∈ db.documents, d.id = r.1.document_id → d.user_id = user := by
  intro r hr
  obtain ⟨helig, -⟩ := mem_vector_search hr
  obtain ⟨-, hemb, doc, hfind, huser⟩ := mem_eligibleRows helig
  refine ⟨hemb, ?_⟩
  intro d hd hdid
  have hdoc_mem := List.mem_of_find?_eq_some hfind
  have hdoc_id : doc.id = r.1.document_id := by
    have := List.find?_some hfind
    simpa using this
  have : d = doc := nodup_map_inj hids hd hdoc_mem (by rw [hdid, hdoc_id])
  rw [this, huser]

/-- Concrete store for the vector-search witnesses: two documents owned by
different users, one chunk each, plus an embedding-less chunk. -/
def wDB : DB :=
  { documents :=
      [⟨10, 1, "a.txt", ".txt", 1, [], 1⟩, ⟨11, 2, "b.txt", ".txt", 1, [], 1⟩],
    chunks :=
      [⟨20, 10, "x".toList, 0, 1, some [1]⟩,
       ⟨21, 11, "y".toList, 0, 1, some [2]⟩,
       ⟨22, 10, "z".toList, 1, 1, none⟩],
    conversations := [], messages := [], nextId := 30, clock := 0 }

/-- Witness for C4 at a concrete store. -/
theorem vector_search_owner_embedding_witness :
    (⟨20, 10, "x".toList, 0, 1, some [1]⟩ : ChunkR).embedding.isSome ∧
    ∀ d ∈ wDB.documents,
      d.id = (⟨20, 10, "x".toList, 0, 1, some [1]⟩ : ChunkR).document_id →
      d.user_id = 1 :=
  vector_search_owner_embedding wDB (fun a b => if a = b then 0 else 1)
    [1] 1 5 none (by decide)
    (⟨20, 10, "x".toList, 0, 1, some [1]⟩, 0, "a.txt") (by decide)

/-- C5.  `vector_search` returns matches ordered ascending by distance, at
most `top_k` of them; a supplied `max_distance` bounds every returned
distance (`distance ≤ max_distance`); with no `max_distance` no threshold
filtering happens — the result is exactly the `top_k`-truncation of all
eligible rows, so only `top_k` bounds the result size. -/
theorem vector_search_order_topk_threshold (db : DB) (dist : Vec → Vec → ℚ)
    (q : Vec) (user top_k : Nat) (maxd : Option ℚ) :
    List.Pairwise (fun a b : ChunkR × ℚ × String => a.2.1 ≤ b.2.1)
      (vector_search db dist q user top_k maxd) ∧
    (vector_search db dist q user top_k maxd).length ≤ top_k ∧
    (∀ m, maxd = some m →
      ∀ r ∈ vector_search db dist q user top_k maxd, r.2.1 ≤ m) ∧
    (maxd = none →
      (vector_search db dist q user top_k maxd).length =
        min top_k (eligibleRows db dist q user).length) := by
  refine ⟨?_, ?_, ?_, ?_⟩
  · have hs : List.Sorted (fun a b : ChunkR × ℚ × String => a.2.1 ≤ b.2.1)
        (List.insertionSort (fun a b => a.2.1 ≤ b.2.1)
          (match maxd with
           | some m => (eligibleRows db dist q user).filter (fun r => r.2.1 ≤ m)
           | none => eligibleRows db dist q user)) := by
      haveI : IsTotal (ChunkR × ℚ × String) (fun a b => a.2.1 ≤ b.2.1) :=
        ⟨fun a b => le_total a.2.1 b.2.1⟩
      haveI : IsTrans (ChunkR × ℚ × String) (fun a b => a.2.1 ≤ b.2.1) :=
        ⟨fun a b c hab hbc => le_trans hab hbc⟩
      exact List.sorted_insertionSort _ _
    unfold vector_search
    cases maxd with
    | none => exact hs.sublist (List.take_sublist _ _)
    | some m => exact hs.sublist (List.take_sublist _ _)
  · unfold vector_search
    cases maxd <;> simp [List.length_take]
  · intro m hm r hr
    exact (mem_vector_search hr).2 m hm
  · intro hm
    subst hm
    unfold vector_search
    rw [List.length_take, List.length_insertionSort]

/-- Witness for C5 at a concrete store (threshold case). -/
theorem vector_search_order_topk_threshold_witness :
    List.Pairwise (fun a b : ChunkR × ℚ × String => a.2.1 ≤ b.2.1)
      (vector_search wDB (fun _ _ => 1) [1] 1 5 (some 2)) ∧
    (vector_search wDB (fun _ _ => 1) [1] 1 5 (some 2)).length ≤ 5 ∧
    (∀ m, (some (2 : ℚ)) = some m →
      ∀ r ∈ vector_search wDB (fun _ _ => 1) [1] 1 5 (some 2), r.2.1 ≤ m) ∧
    ((some (2 : ℚ)) = none →
      (vector_search wDB (fun _ _ => 1) [1] 1 5 (some 2)).length =
        min 5 (eligibleRows wDB (fun _ _ => 1) [1] 1).length) :=
  vector_search_order_topk_threshold wDB (fun _ _ => 1) [1] 1 5 (some 2)

/-! ## §11 Orchestrator: claims about `query_rag_stream` -/

theorem create_conversation_docs (db : DB) (u : Nat) (t : Str) :
    (create_conversation db u t).2.documents = db.documents ∧
    (create_conversation db u t).2.chunks = db.chunks ∧
    (create_conversation db u t).2.messages = db.messages := by
  simp [create_conversation]

theorem add_message_docs (db : DB) (cid : Nat) (role : String) (content : Str)
    (s : Option (List SourceChunk)) (p c : Option Nat) :
    (add_message db cid role content s p c).2.documents = db.documents ∧
    (add_message db cid role content s p c).2.chunks = db.chunks ∧
    (add_message db cid role content s p c).2.messages =
      db.messages ++ [(add_message db cid role content s p c).1] := by
  simp [add_message]

/-- `vector_search` reads only the `documents` and `chunks` tables. -/
theorem vector_search_tables {db db' : DB} (dist : Vec → Vec → ℚ) (q : Vec)
    (user top_k : Nat) (maxd : Option ℚ)
    (hdocs : db'.documents = db.documents) (hchunks : db'.chunks = db.chunks) :
    vector_search db' dist q user top_k maxd =
      vector_search db dist q user top_k maxd := by
  unfold vector_search eligibleRows
  rw [hdocs, hchunks]

/-- The store reached just after the user turn is persisted
(`rag.py`, lines 87–96). -/
def dbAfterUserMsg (db0 : DB) (question : Str) (user_id : Nat)
    (conversation_id? : Option Nat) : DB :=
  let resolved :=
    match conversation_id? with
    | some cid => (cid, db0)
    | none =>
      let r := create_conversation db0 user_id (question.take 50)
      (r.1.id, r.2)
  (add_message resolved.2 resolved.1 "user" question none none none).2

theorem dbAfterUserMsg_tables (db0 : DB) (question : Str) (user_id : Nat)
    (cid? : Option Nat) :
    (dbAfterUserMsg db0 question user_id cid?).documents = db0.documents ∧
    (dbAfterUserMsg db0 question user_id cid?).chunks = db0.chunks := by
  cases cid? <;> simp [dbAfterUserMsg, add_message, create_conversation]

/-- C7.  When retrieval over the stored data returns nothing, the stream is
exactly `conversation_id`, an empty `sources`, one `delta` carrying the
canned no-match answer, and `done`; that answer is persisted as the
assistant message; the generative model is never invoked (the outcome does
not depend on the generation oracle at all). -/
theorem query_rag_stream_no_match (cfg : SettingsR) (dist : Vec → Vec → ℚ)
    (db0 : DB) (question : Str) (user_id : Nat) (top_k? : Option Nat)
    (conversation_id? : Option Nat) (v : Vec) (genRes genRes' : GenResult)
    (hs : vector_search db0 dist v user_id (top_k?.getD cfg.VECTOR_SEARCH_TOP_K)
        cfg.VECTOR_SEARCH_MAX_DISTANCE = []) :
    ∃ cid,
      (query_rag_stream cfg dist db0 question user_id top_k? conversation_id?
          (.ok v) genRes).events =
        [.conversation_id cid, .sources [], .delta noResultMsg,
         .done noResultMsg] ∧
      (query_rag_stream cfg dist db0 question user_id top_k? conversation_id?
          (.ok v) genRes).calledLLM = false ∧
      (∃ mu ma,
        (query_rag_stream cfg dist db0 question user_id top_k? conversation_id?
            (.ok v) genRes).db.messages = db0.messages ++ [mu, ma] ∧
        mu.role = "user" ∧ mu.content = question ∧
        ma.role = "assistant" ∧ ma.content = noResultMsg) ∧
      query_rag_stream cfg dist db0 question user_id top_k? conversation_id?
          (.ok v) genRes =
        query_rag_stream cfg dist db0 question user_id top_k? conversation_id?
          (.ok v) genRes' := by
  have htab := dbAfterUserMsg_tables db0 question user_id conversation_id?
  have hs' : vector_search (dbAfterUserMsg db0 question user_id conversation_id?)
      dist v user_id (top_k?.getD cfg.VECTOR_SEARCH_TOP_K)
      cfg.VECTOR_SEARCH_MAX_DISTANCE = [] := by
    rw [vector_search_tables dist v user_id _ _ htab.1 htab.2]
    exact hs
  cases conversation_id? with
  | some cid =>
    refine ⟨cid, ?_⟩
    simp only [query_rag_stream, dbAfterUserMsg] at hs' ⊢
    rw [hs']
    refine ⟨by simp, by simp, ?_, by simp⟩
    refine ⟨⟨cid, "user", question, none, none, none, db0.clock⟩,
            ⟨cid, "assistant", noResultMsg, none, none, none, db0.clock + 1⟩,
            ?_, rfl, rfl, rfl, rfl⟩
    simp [add_message]
  | none =>
    refine ⟨db0.nextId, ?_⟩
    simp only [query_rag_stream, dbAfterUserMsg] at hs' ⊢
    rw [hs']
    refine ⟨by simp [create_conversation], by simp, ?_, by simp⟩
    refine ⟨⟨db0.nextId, "user", question, none, none, none, db0.clock⟩,
            ⟨db0.nextId, "assistant", noResultMsg, none, none, none,
              db0.clock + 1⟩,
            ?_, rfl, rfl, rfl, rfl⟩
    simp [add_message, create_conversation]

/-- Concrete settings record for witnesses (`config.py` defaults; the
threshold options exercised per scenario). -/
def wCfg : SettingsR :=
  ⟨5, none, 10, 512, 50, 10485760⟩

/-- Witness for C7: a user with no stored chunks. -/
theorem query_rag_stream_no_match_witness :
    ∃ cid,
      (query_rag_stream wCfg (fun _ _ => 0) wDB "q".toList 3 none none
          (.ok [1]) (.stream [] false)).events =
        [.conversation_id cid, .sources [], .delta noResultMsg,
         .done noResultMsg] ∧
      (query_rag_stream wCfg (fun _ _ => 0) wDB "q".toList 3 none none
          (.ok [1]) (.stream [] false)).calledLLM = false ∧
      (∃ mu ma,
        (query_rag_stream wCfg (fun _ _ => 0) wDB "q".toList 3 none none
            (.ok [1]) (.stream [] false)).db.messages =
          wDB.messages ++ [mu, ma] ∧
        mu.role = "user" ∧ mu.content = "q".toList ∧
        ma.role = "assistant" ∧ ma.content = noResultMsg) ∧
      query_rag_stream wCfg (fun _ _ => 0) wDB "q".toList 3 none none
          (.ok [1]) (.stream [] false) =
        query_rag_stream wCfg (fun _ _ => 0) wDB "q".toList 3 none none
          (.ok [1]) .createError :=
  query_rag_stream_no_match wCfg (fun _ _ => 0) wDB "q".toList 3 none none
    [1] (.stream [] false) .createError (by decide)

/-- The content fragment a provider chunk contributes as a `delta` event:
`none` when `choices` is empty or `delta.content` is absent or empty
(Python falsiness of `delta.content`). -/
def extractDelta (c : StreamChunkR) : Option Str :=
  match c.choices with
  | [] => none
  | d :: _ =>
    match d.content with
    | some t => if t = [] then none else some t
    | none => none

/-- The `delta` payloads of an event list, in order. -/
def deltaPayloads (evs : List Event) : List Str :=
  evs.filterMap (fun e => match e with | .delta t => some t | _ => none)

/-- Events that may occur between `sources` and the stream terminal. -/
def isDeltaOrUsage : Event → Bool
  | .delta _ => true
  | .usage _ _ _ => true
  | _ => false

/-- Whether an event is an `error` event. -/
def isErrorEvent : Event → Bool
  | .error _ => true
  | _ => false

theorem chunkEvents_deltaPayloads (c : StreamChunkR) :
    deltaPayloads (chunkEvents c) = (extractDelta c).toList := by
  unfold chunkEvents extractDelta deltaPayloads
  cases hc : c.choices with
  | nil => cases hu : c.usage <;> simp
  | cons d rest =>
    cases hd : d.content with
    | none => cases hu : c.usage <;> simp [hd]
    | some t =>
      by_cases ht : t = [] <;> cases hu : c.usage <;> simp [hd, ht]

theorem chunkEvents_du (c : StreamChunkR) :
    ∀ e ∈ chunkEvents c, isDeltaOrUsage e = true := by
  unfold chunkEvents
  cases hc : c.choices with
  | nil =>
    cases hu : c.usage <;> intro e he <;> simp at he <;>
      subst he <;> simp [isDeltaOrUsage]
  | cons d rest =>
    cases hd : d.content with
    | none =>
      cases hu : c.usage <;> intro e he <;> simp [hd] at he <;>
        subst he <;> simp [isDeltaOrUsage]
    | some t =>
      by_cases ht : t = [] <;> cases hu : c.usage <;> intro e he <;>
        simp [hd, ht] at he <;> rcases he with rfl | rfl <;>
          simp [isDeltaOrUsage]

theorem streamEvents_deltaPayloads (chunks : List StreamChunkR) :
    deltaPayloads ((chunks.map chunkEvents).flatten) =
      chunks.filterMap extractDelta := by
  induction chunks with
  | nil => simp [deltaPayloads]
  | cons c rest ih =>
    simp only [List.map_cons, List.flatten_cons, List.filterMap_cons]
    have h1 : deltaPayloads (chunkEvents c ++ (rest.map chunkEvents).flatten) =
        deltaPayloads (chunkEvents c) ++
          deltaPayloads ((rest.map chunkEvents).flatten) := by
      simp [deltaPayloads]
    rw [h1, chunkEvents_deltaPayloads, ih]
    cases extractDelta c <;> simp

theorem streamAccum_full (chunks : List StreamChunkR) :
    ∀ acc : Str × Option Nat × Option Nat,
      (streamAccum acc chunks).1 =
        acc.1 ++ (chunks.filterMap extractDelta).flatten := by
  induction chunks with
  | nil => intro acc; simp [streamAccum]
  | cons c rest ih =>
    intro acc
    rw [streamAccum]
    cases hc : c.choices with
    | nil =>
      cases hu : c.usage <;>
        simp [ih, List.filterMap_cons, extractDelta, hc]
    | cons d ds =>
      cases hd : d.content with
      | none =>
        cases hu : c.usage <;>
          simp [ih, List.filterMap_cons, extractDelta, hc, hd]
      | some t =>
        by_cases ht : t = [] <;> cases hu : c.usage <;>
          simp [ih, List.filterMap_cons, extractDelta, hc, hd, ht]

theorem deltaPayloads_wrapped (cid : Nat) (S : List SourceChunk)
    (chunks : List StreamChunkR) (tail : List Event)
    (htail : deltaPayloads tail = []) :
    deltaPayloads (Event.conversation_id cid :: Event.sources S ::
      ((chunks.map chunkEvents).flatten ++ tail)) =
      chunks.filterMap extractDelta := by
  have h1 := streamEvents_deltaPayloads chunks
  unfold deltaPayloads at h1 htail ⊢
  simp only [List.filterMap_cons, List.filterMap_append]
  rw [h1, htail]
  simp

/-- C10.  On the successful generation path the `done` payload and the
persisted assistant content both equal the concatenation, in emission
order, of exactly the fragments emitted as `delta` events; fragments with
empty or absent content contribute no `delta` event and no text. -/
theorem query_rag_stream_full_text (cfg : SettingsR) (dist : Vec → Vec → ℚ)
    (db0 : DB) (question : Str) (user_id : Nat) (top_k? : Option Nat)
    (conversation_id? : Option Nat) (v : Vec) (chunks : List StreamChunkR)
    (hs : vector_search db0 dist v user_id (top_k?.getD cfg.VECTOR_SEARCH_TOP_K)
        cfg.VECTOR_SEARCH_MAX_DISTANCE ≠ []) :
    (query_rag_stream cfg dist db0 question user_id top_k? conversation_id?
          (.ok v) (.stream chunks false)).events.getLast? =
        some (Event.done ((chunks.filterMap extractDelta).flatten)) ∧
      deltaPayloads
        (query_rag_stream cfg dist db0 question user_id top_k? conversation_id?
          (.ok v) (.stream chunks false)).events =
        chunks.filterMap extractDelta ∧
      (query_rag_stream cfg dist db0 question user_id top_k? conversation_id?
          (.ok v) (.stream chunks false)).db.messages.map
          (fun m => (m.role, m.content)) =
        db0.messages.map (fun m => (m.role, m.content)) ++
          [("user", question),
           ("assistant", (chunks.filterMap extractDelta).flatten)] := by
  have htab := dbAfterUserMsg_tables db0 question user_id conversation_id?
  have hs' : vector_search (dbAfterUserMsg db0 question user_id conversation_id?)
      dist v user_id (top_k?.getD cfg.VECTOR_SEARCH_TOP_K)
      cfg.VECTOR_SEARCH_MAX_DISTANCE ≠ [] := by
    rw [vector_search_tables dist v user_id _ _ htab.1 htab.2]
    exact hs
  have hacc := streamAccum_full chunks ([], none, none)
  cases conversation_id? with
  | some cid =>
    simp only [query_rag_stream, dbAfterUserMsg] at hs' ⊢
    rw [if_neg hs']
    refine ⟨?_, ?_, ?_⟩
    · simp [hacc]
      rw [← List.cons_append, List.getLast?_concat]
    · have h := streamEvents_deltaPayloads chunks
      simp only [deltaPayloads] at h ⊢
      simpa using h
    · simp [add_message, hacc]
  | none =>
    simp only [query_rag_stream, dbAfterUserMsg] at hs' ⊢
    rw [if_neg hs']
    refine ⟨?_, ?_, ?_⟩
    · simp [hacc]
      rw [← List.cons_append, List.getLast?_concat]
    · have h := streamEvents_deltaPayloads chunks
      simp only [deltaPayloads] at h ⊢
      simpa using h
    · simp [add_message, create_conversation, hacc]

theorem mem_streamEvents_du {chunks : List StreamChunkR} {e : Event}
    (he : e ∈ (chunks.map chunkEvents).flatten) : isDeltaOrUsage e = true := by
  obtain ⟨l, hl, hel⟩ := List.mem_flatten.mp he
  obtain ⟨c, _, rfl⟩ := List.mem_map.mp hl
  exact chunkEvents_du c e hel

/-- C2 (amended).  A generation-call failure before streaming begins emits
a single terminal `error` event (after the `sources` event) and persists no
assistant message; a failure while fragments are being streamed terminates
the generator by an uncaught exception — after the events already emitted,
with NO `error` event — and likewise persists no assistant message.  In
neither case does a `done` event occur. -/
theorem query_rag_stream_gen_failure (cfg : SettingsR) (dist : Vec → Vec → ℚ)
    (db0 : DB) (question : Str) (user_id : Nat) (top_k? : Option Nat)
    (conversation_id? : Option Nat) (v : Vec)
    (hs : vector_search db0 dist v user_id (top_k?.getD cfg.VECTOR_SEARCH_TOP_K)
        cfg.VECTOR_SEARCH_MAX_DISTANCE ≠ []) :
    ((query_rag_stream cfg dist db0 question user_id top_k? conversation_id?
        (.ok v) .createError).events.countP isErrorEvent = 1 ∧
      (query_rag_stream cfg dist db0 question user_id top_k? conversation_id?
        (.ok v) .createError).events.getLast? =
          some (.error genErrorDetail) ∧
      (∀ ft, Event.done ft ∉
        (query_rag_stream cfg dist db0 question user_id top_k? conversation_id?
          (.ok v) .createError).events) ∧
      (query_rag_stream cfg dist db0 question user_id top_k? conversation_id?
          (.ok v) .createError).db.messages.map
          (fun m => (m.role, m.content)) =
        db0.messages.map (fun m => (m.role, m.content)) ++
          [("user", question)] ∧
      (query_rag_stream cfg dist db0 question user_id top_k? conversation_id?
        (.ok v) .createError).raised = false) ∧
    (∀ chunks,
      (query_rag_stream cfg dist db0 question user_id top_k? conversation_id?
        (.ok v) (.stream chunks true)).events.countP isErrorEvent = 0 ∧
      (∀ ft, Event.done ft ∉
        (query_rag_stream cfg dist db0 question user_id top_k? conversation_id?
          (.ok v) (.stream chunks true)).events) ∧
      (query_rag_stream cfg dist db0 question user_id top_k? conversation_id?
          (.ok v) (.stream chunks true)).db.messages.map
          (fun m => (m.role, m.content)) =
        db0.messages.map (fun m => (m.role, m.content)) ++
          [("user", question)] ∧
      (query_rag_stream cfg dist db0 question user_id top_k? conversation_id?
        (.ok v) (.stream chunks true)).raised = true) := by
  have htab := dbAfterUserMsg_tables db0 question user_id conversation_id?
  have hs' : vector_search (dbAfterUserMsg db0 question user_id conversation_id?)
      dist v user_id (top_k?.getD cfg.VECTOR_SEARCH_TOP_K)
      cfg.VECTOR_SEARCH_MAX_DISTANCE ≠ [] := by
    rw [vector_search_tables dist v user_id _ _ htab.1 htab.2]
    exact hs
  constructor
  · cases conversation_id? with
    | some cid =>
      simp only [query_rag_stream, dbAfterUserMsg] at hs' ⊢
      rw [if_neg hs']
      refine ⟨?_, ?_, ?_, ?_, ?_⟩
      · simp [isErrorEvent]
      · simp
      · intro ft hft
        simp [isErrorEvent] at hft
      · simp [add_message]
      · simp
    | none =>
      simp only [query_rag_stream, dbAfterUserMsg] at hs' ⊢
      rw [if_neg hs']
      refine ⟨?_, ?_, ?_, ?_, ?_⟩
      · simp [isErrorEvent]
      · simp
      · intro ft hft
        simp [isErrorEvent] at hft
      · simp [add_message, create_conversation]
      · simp
  · intro chunks
    have hcount : (chunks.map chunkEvents).flatten.countP isErrorEvent = 0 := by
      rw [List.countP_eq_zero]
      intro e he
      have := mem_streamEvents_du he
      cases e <;> simp_all [isDeltaOrUsage, isErrorEvent]
    have hdone : ∀ ft, Event.done ft ∉ (chunks.map chunkEvents).flatten := by
      intro ft hft
      have := mem_streamEvents_du hft
      simp [isDeltaOrUsage] at this
    cases conversation_id? with
    | some cid =>
      simp only [query_rag_stream, dbAfterUserMsg] at hs' ⊢
      rw [if_neg hs']
      refine ⟨?_, ?_, ?_, ?_⟩
      · simp [isErrorEvent, hcount]
      · intro ft hft
        simp [isErrorEvent] at hft
        obtain ⟨c, hc, hec⟩ := hft
        have := chunkEvents_du c _ hec
        simp [isDeltaOrUsage] at this
      · simp [add_message]
      · simp
    | none =>
      simp only [query_rag_stream, dbAfterUserMsg] at hs' ⊢
      rw [if_neg hs']
      refine ⟨?_, ?_, ?_, ?_⟩
      · simp [isErrorEvent, hcount]
      · intro ft hft
        simp [isErrorEvent] at hft
        obtain ⟨c, hc, hec⟩ := hft
        have := chunkEvents_du c _ hec
        simp [isDeltaOrUsage] at this
      · simp [add_message, create_conversation]
      · simp

/-- Witness for C2 (amended) at a concrete store. -/
theorem query_rag_stream_gen_failure_witness :
    ((query_rag_stream wCfg (fun _ _ => 0) wDB "q".toList 1 none none
        (.ok [1]) .createError).events.countP isErrorEvent = 1 ∧
      (query_rag_stream wCfg (fun _ _ => 0) wDB "q".toList 1 none none
        (.ok [1]) .createError).events.getLast? =
          some (.error genErrorDetail) ∧
      (∀ ft, Event.done ft ∉
        (query_rag_stream wCfg (fun _ _ => 0) wDB "q".toList 1 none none
          (.ok [1]) .createError).events) ∧
      (query_rag_stream wCfg (fun _ _ => 0) wDB "q".toList 1 none none
          (.ok [1]) .createError).db.messages.map
          (fun m => (m.role, m.content)) =
        wDB.messages.map (fun m => (m.role, m.content)) ++
          [("user", "q".toList)] ∧
      (query_rag_stream wCfg (fun _ _ => 0) wDB "q".toList 1 none none
        (.ok [1]) .createError).raised = false) ∧
    (∀ chunks,
      (query_rag_stream wCfg (fun _ _ => 0) wDB "q".toList 1 none none
        (.ok [1]) (.stream chunks true)).events.countP isErrorEvent = 0 ∧
      (∀ ft, Event.done ft ∉
        (query_rag_stream wCfg (fun _ _ => 0) wDB "q".toList 1 none none
          (.ok [1]) (.stream chunks true)).events) ∧
      (query_rag_stream wCfg (fun _ _ => 0) wDB "q".toList 1 none none
          (.ok [1]) (.stream chunks true)).db.messages.map
          (fun m => (m.role, m.content)) =
        wDB.messages.map (fun m => (m.role, m.content)) ++
          [("user", "q".toList)] ∧
      (query_rag_stream wCfg (fun _ _ => 0) wDB "q".toList 1 none none
        (.ok [1]) (.stream chunks true)).raised = true) :=
  query_rag_stream_gen_failure wCfg (fun _ _ => 0) wDB "q".toList 1 none none
    [1] (by decide)

/-- Counterexample to C2 as stated: a concrete invocation in which the
generation call fails in mid-stream (after one delta fragment) — the
generator terminates abnormally having emitted NO `error` event, while the
claim asserts a single error event is emitted for failures during
streaming. -/
theorem query_rag_stream_midstream_failure_no_error_event :
    (query_rag_stream wCfg (fun _ _ => 0) wDB "q".toList 1 none none
      (.ok [1]) (.stream [⟨[⟨some "He".toList⟩], none⟩] true)).raised = true ∧
    deltaPayloads (query_rag_stream wCfg (fun _ _ => 0) wDB "q".toList 1 none
      none (.ok [1]) (.stream [⟨[⟨some "He".toList⟩], none⟩] true)).events =
      ["He".toList] ∧
    (query_rag_stream wCfg (fun _ _ => 0) wDB "q".toList 1 none none
      (.ok [1]) (.stream [⟨[⟨some "He".toList⟩], none⟩] true)).events.countP
      isErrorEvent = 0 := by
  decide

/-- Witness for C10 at a concrete stream with a non-empty fragment, an
empty fragment, an absent-content fragment and a usage-only fragment. -/
theorem query_rag_stream_full_text_witness :
    (query_rag_stream wCfg (fun _ _ => 0) wDB "q".toList 1 none none
        (.ok [1]) (.stream [⟨[⟨some "Hel".toList⟩], none⟩,
          ⟨[⟨some []⟩], none⟩, ⟨[⟨none⟩], none⟩,
          ⟨[], some ⟨3, 4, 7⟩⟩] false)).events.getLast? =
      some (Event.done (([⟨[⟨some "Hel".toList⟩], none⟩,
          ⟨[⟨some []⟩], none⟩, ⟨[⟨none⟩], none⟩, ⟨[], some ⟨3, 4, 7⟩⟩] :
            List StreamChunkR).filterMap extractDelta).flatten) ∧
    deltaPayloads
      (query_rag_stream wCfg (fun _ _ => 0) wDB "q".toList 1 none none
        (.ok [1]) (.stream [⟨[⟨some "Hel".toList⟩], none⟩,
          ⟨[⟨some []⟩], none⟩, ⟨[⟨none⟩], none⟩,
          ⟨[], some ⟨3, 4, 7⟩⟩] false)).events =
      ([⟨[⟨some "Hel".toList⟩], none⟩, ⟨[⟨some []⟩], none⟩, ⟨[⟨none⟩], none⟩,
        ⟨[], some ⟨3, 4, 7⟩⟩] : List StreamChunkR).filterMap extractDelta ∧
    (query_rag_stream wCfg (fun _ _ => 0) wDB "q".toList 1 none none
        (.ok [1]) (.stream [⟨[⟨some "Hel".toList⟩], none⟩,
          ⟨[⟨some []⟩], none⟩, ⟨[⟨none⟩], none⟩,
          ⟨[], some ⟨3, 4, 7⟩⟩] false)).db.messages.map
        (fun m => (m.role, m.content)) =
      wDB.messages.map (fun m => (m.role, m.content)) ++
        [("user", "q".toList),
         ("assistant", (([⟨[⟨some "Hel".toList⟩], none⟩, ⟨[⟨some []⟩], none⟩,
           ⟨[⟨none⟩], none⟩, ⟨[], some ⟨3, 4, 7⟩⟩] :
             List StreamChunkR).filterMap extractDelta).flatten)] :=
  query_rag_stream_full_text wCfg (fun _ _ => 0) wDB "q".toList 1 none none
    [1] [⟨[⟨some "Hel".toList⟩], none⟩, ⟨[⟨some []⟩], none⟩, ⟨[⟨none⟩], none⟩,
      ⟨[], some ⟨3, 4, 7⟩⟩] (by decide)

/-- Whether an event is a `usage` event. -/
def isUsageEvent : Event → Bool
  | .usage _ _ _ => true
  | _ => false

/-- `(delta | usage)*` optionally terminated by a single `done` — the tail
the code can produce after the `sources` event on a generation stream. -/
def duTailB : List Event → Bool
  | [] => true
  | [Event.done _] => true
  | e :: rest => isDeltaOrUsage e && duTailB rest

/-- The event-sequence shapes `query_rag_stream` can actually emit:
`conversation_id` then either a terminal `error` (embedding failure), or
`sources` followed by either a terminal `error` (generation-setup failure)
or by deltas/usages optionally closed by `done` (absent exactly when the
stream raised in mid-iteration). -/
def amendedShapeB : List Event → Bool
  | Event.conversation_id _ :: rest =>
    (match rest with
     | [Event.error _] => true
     | Event.sources _ :: rest2 =>
       (match rest2 with
        | [Event.error _] => true
        | _ => duTailB rest2)
     | _ => false)
  | _ => false

/-- The event-sequence regex asserted by the specification:
`conversation_id, sources, delta*, usage?, done` or `conversation_id,
error`. -/
def claimedTailB : List Event → Bool
  | [Event.done _] => true
  | [Event.usage _ _ _, Event.done _] => true
  | Event.delta _ :: rest => claimedTailB rest
  | _ => false

/-- Checker for the event sequence exactly as the specification claims it. -/
def claimedShapeB : List Event → Bool
  | [Event.conversation_id _, Event.error _] => true
  | Event.conversation_id _ :: Event.sources _ :: rest => claimedTailB rest
  | _ => false

theorem duTailB_of_du {l : List Event} (h : ∀ e ∈ l, isDeltaOrUsage e = true) :
    duTailB l = true := by
  induction l with
  | nil => rfl
  | cons e t ih =>
    have he := h e (by simp)
    cases e with
    | delta s =>
      have : duTailB (Event.delta s :: t) = (isDeltaOrUsage (Event.delta s) && duTailB t) := by
        cases t <;> rfl
      rw [this, ih (fun x hx => h x (by simp [hx]))]
      simp [isDeltaOrUsage]
    | usage a b c =>
      have : duTailB (Event.usage a b c :: t) = (isDeltaOrUsage (Event.usage a b c) && duTailB t) := by
        cases t <;> rfl
      rw [this, ih (fun x hx => h x (by simp [hx]))]
      simp [isDeltaOrUsage]
    | conversation_id i => simp [isDeltaOrUsage] at he
    | sources s => simp [isDeltaOrUsage] at he
    | done f => simp [isDeltaOrUsage] at he
    | error f => simp [isDeltaOrUsage] at he

theorem duTailB_append_done {l : List Event} (x : Str)
    (h : ∀ e ∈ l, isDeltaOrUsage e = true) :
    duTailB (l ++ [Event.done x]) = true := by
  induction l with
  | nil => rfl
  | cons e t ih =>
    have he := h e (by simp)
    have ht := ih (fun y hy => h y (by simp [hy]))
    cases e with
    | delta s =>
      have : duTailB (Event.delta s :: (t ++ [Event.done x])) =
          (isDeltaOrUsage (Event.delta s) && duTailB (t ++ [Event.done x])) := by
        cases t <;> rfl
      rw [List.cons_append, this, ht]
      simp [isDeltaOrUsage]
    | usage a b c =>
      have : duTailB (Event.usage a b c :: (t ++ [Event.done x])) =
          (isDeltaOrUsage (Event.usage a b c) && duTailB (t ++ [Event.done x])) := by
        cases t <;> rfl
      rw [List.cons_append, this, ht]
      simp [isDeltaOrUsage]
    | conversation_id i => simp [isDeltaOrUsage] at he
    | sources s => simp [isDeltaOrUsage] at he
    | done f => simp [isDeltaOrUsage] at he
    | error f => simp [isDeltaOrUsage] at he

theorem chunkEvents_no_usage {c : StreamChunkR} (h : c.usage = none) :
    chunkEvents c = (extractDelta c).toList.map Event.delta := by
  unfold chunkEvents extractDelta
  rw [h]
  cases hc : c.choices with
  | nil => simp
  | cons d rest =>
    cases hd : d.content with
    | none => simp [hd]
    | some t => by_cases ht : t = [] <;> simp [hd, ht]

theorem chunkEvents_split (c : StreamChunkR) :
    chunkEvents c = (extractDelta c).toList.map Event.delta ++
      (match c.usage with
       | some u => [Event.usage u.prompt_tokens u.completion_tokens
           u.total_tokens]
       | none => []) := by
  unfold chunkEvents extractDelta
  cases hc : c.choices with
  | nil => simp
  | cons d rest =>
    cases hd : d.content with
    | none => simp [hd]
    | some t => by_cases ht : t = [] <;> simp [hd, ht]

theorem chunkEvents_flatten_usage_last (chunks : List StreamChunkR)
    (h : ∀ c ∈ chunks.dropLast, c.usage = none) :
    ∃ us, (chunks.map chunkEvents).flatten =
      ((chunks.filterMap extractDelta).map Event.delta) ++ us ∧
      us.length ≤ 1 ∧ ∀ u ∈ us, isUsageEvent u = true := by
  induction chunks with
  | nil => exact ⟨[], by simp, by simp, by simp⟩
  | cons c rest ih =>
    cases rest with
    | nil =>
      refine ⟨(match c.usage with
        | some u => [Event.usage u.prompt_tokens u.completion_tokens
            u.total_tokens]
        | none => []), ?_, ?_, ?_⟩
      · simp only [List.map_cons, List.map_nil, List.flatten_cons,
          List.flatten_nil, List.append_nil, List.filterMap_cons,
          List.filterMap_nil]
        rw [chunkEvents_split c]
        cases extractDelta c <;> simp
      · cases c.usage <;> simp
      · cases hu : c.usage <;> intro u hu2 <;> simp at hu2
        subst hu2
        simp [isUsageEvent]
    | cons c2 rest2 =>
      have hc : c.usage = none := by
        apply h c
        simp [List.dropLast]
      obtain ⟨us, h1, h2, h3⟩ := ih (fun x hx => by
        apply h x
        simp only [List.dropLast]
        exact List.mem_cons_of_mem c hx)
      refine ⟨us, ?_, h2, h3⟩
      have hfl : (List.map chunkEvents (c :: c2 :: rest2)).flatten =
          chunkEvents c ++ (List.map chunkEvents (c2 :: rest2)).flatten := by
        simp
      rw [hfl, chunkEvents_no_usage hc, h1]
      have hfm : List.filterMap extractDelta (c :: c2 :: rest2) =
          (extractDelta c).toList ++ List.filterMap extractDelta (c2 :: rest2) := by
        cases hx : extractDelta c <;> simp [List.filterMap_cons, hx]
      rw [hfm]
      simp

theorem amendedShapeB_sources (cid : Nat) (S : List SourceChunk)
    (rest2 : List Event) (h : duTailB rest2 = true) :
    amendedShapeB (Event.conversation_id cid :: Event.sources S :: rest2) =
      true := by
  cases rest2 with
  | nil => rfl
  | cons e t =>
    cases e with
    | conversation_id i => exact h
    | sources s => exact h
    | delta d => exact h
    | usage a b c => exact h
    | done f => exact h
    | error f =>
      cases t with
      | nil => rfl
      | cons e2 t2 => exact h

/-- C1 (amended).  Every emitted event sequence is `conversation_id`
followed by: a terminal `error` (embedding failure), or `sources` followed
by a terminal `error` (generation-setup failure) or by deltas and usages
optionally closed by a single `done` — `done` is missing exactly when the
provider stream raised in mid-iteration, in which case the stream
terminates with neither `done` nor `error`.  An `error` and a `done` never
both occur.  When the provider delivers at most one usage-bearing chunk, as
the last chunk, the tail after `sources` is exactly
`delta*, usage?, done`. -/
theorem query_rag_stream_event_ordering (cfg : SettingsR)
    (dist : Vec → Vec → ℚ) (db0 : DB) (question : Str) (user_id : Nat)
    (top_k? : Option Nat) (conversation_id? : Option Nat)
    (embedRes : Except Unit Vec) (genRes : GenResult) :
    amendedShapeB (query_rag_stream cfg dist db0 question user_id top_k?
      conversation_id? embedRes genRes).events = true ∧
    ((∃ e, Event.error e ∈ (query_rag_stream cfg dist db0 question user_id
        top_k? conversation_id? embedRes genRes).events) →
      ∀ ft, Event.done ft ∉ (query_rag_stream cfg dist db0 question user_id
        top_k? conversation_id? embedRes genRes).events) ∧
    (∀ v chunks, embedRes = .ok v → genRes = .stream chunks false →
      (∀ c ∈ chunks.dropLast, c.usage = none) →
      ∃ (ts : List Str) (us : List Event),
        ((query_rag_stream cfg dist db0 question user_id top_k?
          conversation_id? embedRes genRes).events.drop 2 =
          ts.map Event.delta ++ us ++ [Event.done ts.flatten]) ∧
        us.length ≤ 1 ∧ ∀ u ∈ us, isUsageEvent u = true) := by
  cases conversation_id? with
  | some cid =>
    cases embedRes with
    | error e0 =>
      simp only [query_rag_stream]
      refine ⟨rfl, ?_, ?_⟩
      · rintro ⟨e, he⟩ ft hft
        simp at hft
      · intro v chunks hv
        exact absurd hv (by simp)
    | ok v0 =>
      simp only [query_rag_stream]
      by_cases hres : vector_search
          (add_message db0 cid "user" question none none none).2 dist v0
          user_id (top_k?.getD cfg.VECTOR_SEARCH_TOP_K)
          cfg.VECTOR_SEARCH_MAX_DISTANCE = []
      · rw [if_pos hres]
        refine ⟨rfl, ?_, ?_⟩
        · rintro ⟨e, he⟩ ft hft
          simp at he
        · intro v chunks hv hg hus
          refine ⟨[noResultMsg], [], ?_, by simp, by simp⟩
          simp
      · rw [if_neg hres]
        cases genRes with
        | createError =>
          refine ⟨rfl, ?_, ?_⟩
          · rintro ⟨e, he⟩ ft hft
            simp at hft
          · intro v chunks hv hg
            exact absurd hg (by simp)
        | stream chunks0 midError =>
          cases midError with
          | true =>
            have hdu : ∀ x ∈ (chunks0.map chunkEvents).flatten,
                isDeltaOrUsage x = true := fun x hx => mem_streamEvents_du hx
            refine ⟨?_, ?_, ?_⟩
            · exact amendedShapeB_sources cid _ _ (duTailB_of_du hdu)
            · rintro ⟨e, he⟩ ft hft
              simp at he
              obtain ⟨c, hc, hec⟩ := he
              have := chunkEvents_du c _ hec
              simp [isDeltaOrUsage] at this
            · intro v chunks hv hg
              exact absurd hg (by simp)
          | false =>
            have hdu : ∀ x ∈ (chunks0.map chunkEvents).flatten,
                isDeltaOrUsage x = true := fun x hx => mem_streamEvents_du hx
            refine ⟨?_, ?_, ?_⟩
            · exact amendedShapeB_sources cid _ _
                (duTailB_append_done _ hdu)
            · rintro ⟨e, he⟩ ft hft
              simp at he
              obtain ⟨c, hc, hec⟩ := he
              have := chunkEvents_du c _ hec
              simp [isDeltaOrUsage] at this
            · intro v chunks hv hg hus
              have hch : chunks0 = chunks := by
                injection hg
              subst hch
              obtain ⟨us, h1, h2, h3⟩ :=
                chunkEvents_flatten_usage_last chunks0 hus
              refine ⟨chunks0.filterMap extractDelta, us, ?_, h2, h3⟩
              have hacc := streamAccum_full chunks0 ([], none, none)
              simp only [List.nil_append] at hacc
              simp [h1, hacc]
  | none =>
    cases embedRes with
    | error e0 =>
      simp only [query_rag_stream]
      refine ⟨rfl, ?_, ?_⟩
      · rintro ⟨e, he⟩ ft hft
        simp at hft
      · intro v chunks hv
        exact absurd hv (by simp)
    | ok v0 =>
      simp only [query_rag_stream]
      by_cases hres : vector_search
          (add_message (create_conversation db0 user_id (question.take 50)).2
            (create_conversation db0 user_id (question.take 50)).1.id "user"
            question none none none).2 dist v0
          user_id (top_k?.getD cfg.VECTOR_SEARCH_TOP_K)
          cfg.VECTOR_SEARCH_MAX_DISTANCE = []
      · rw [if_pos hres]
        refine ⟨rfl, ?_, ?_⟩
        · rintro ⟨e, he⟩ ft hft
          simp at he
        · intro v chunks hv hg hus
          refine ⟨[noResultMsg], [], ?_, by simp, by simp⟩
          simp
      · rw [if_neg hres]
        cases genRes with
        | createError =>
          refine ⟨rfl, ?_, ?_⟩
          · rintro ⟨e, he⟩ ft hft
            simp at hft
          · intro v chunks hv hg
            exact absurd hg (by simp)
        | stream chunks0 midError =>
          cases midError with
          | true =>
            have hdu : ∀ x ∈ (chunks0.map chunkEvents).flatten,
                isDeltaOrUsage x = true := fun x hx => mem_streamEvents_du hx
            refine ⟨?_, ?_, ?_⟩
            · exact amendedShapeB_sources _ _ _ (duTailB_of_du hdu)
            · rintro ⟨e, he⟩ ft hft
              simp at he
              obtain ⟨c, hc, hec⟩ := he
              have := chunkEvents_du c _ hec
              simp [isDeltaOrUsage] at this
            · intro v chunks hv hg
              exact absurd hg (by simp)
          | false =>
            have hdu : ∀ x ∈ (chunks0.map chunkEvents).flatten,
                isDeltaOrUsage x = true := fun x hx => mem_streamEvents_du hx
            refine ⟨?_, ?_, ?_⟩
            · exact amendedShapeB_sources _ _ _
                (duTailB_append_done _ hdu)
            · rintro ⟨e, he⟩ ft hft
              simp at he
              obtain ⟨c, hc, hec⟩ := he
              have := chunkEvents_du c _ hec
              simp [isDeltaOrUsage] at this
            · intro v chunks hv hg hus
              have hch : chunks0 = chunks := by
                injection hg
              subst hch
              obtain ⟨us, h1, h2, h3⟩ :=
                chunkEvents_flatten_usage_last chunks0 hus
              refine ⟨chunks0.filterMap extractDelta, us, ?_, h2, h3⟩
              have hacc := streamAccum_full chunks0 ([], none, none)
              simp only [List.nil_append] at hacc
              simp [h1, hacc]

/-- Witness for C1 (amended) at a concrete invocation with one content
chunk and a final usage-only chunk. -/
theorem query_rag_stream_event_ordering_witness :
    amendedShapeB (query_rag_stream wCfg (fun _ _ => 0) wDB "q".toList 1 none
      none (.ok [1]) (.stream [⟨[⟨some "Hi".toList⟩], none⟩,
        ⟨[], some ⟨3, 4, 7⟩⟩] false)).events = true ∧
    ((∃ e, Event.error e ∈ (query_rag_stream wCfg (fun _ _ => 0) wDB
        "q".toList 1 none none (.ok [1]) (.stream [⟨[⟨some "Hi".toList⟩],
        none⟩, ⟨[], some ⟨3, 4, 7⟩⟩] false)).events) →
      ∀ ft, Event.done ft ∉ (query_rag_stream wCfg (fun _ _ => 0) wDB
        "q".toList 1 none none (.ok [1]) (.stream [⟨[⟨some "Hi".toList⟩],
        none⟩, ⟨[], some ⟨3, 4, 7⟩⟩] false)).events) ∧
    (∀ v chunks, (Except.ok [1] : Except Unit Vec) = .ok v →
      (GenResult.stream [⟨[⟨some "Hi".toList⟩], none⟩,
        ⟨[], some ⟨3, 4, 7⟩⟩] false) = .stream chunks false →
      (∀ c ∈ chunks.dropLast, c.usage = none) →
      ∃ (ts : List Str) (us : List Event),
        ((query_rag_stream wCfg (fun _ _ => 0) wDB "q".toList 1 none none
          (.ok [1]) (.stream [⟨[⟨some "Hi".toList⟩], none⟩,
          ⟨[], some ⟨3, 4, 7⟩⟩] false)).events.drop 2 =
          ts.map Event.delta ++ us ++ [Event.done ts.flatten]) ∧
        us.length ≤ 1 ∧ ∀ u ∈ us, isUsageEvent u = true) :=
  query_rag_stream_event_ordering wCfg (fun _ _ => 0) wDB "q".toList 1 none
    none (.ok [1]) (.stream [⟨[⟨some "Hi".toList⟩], none⟩,
      ⟨[], some ⟨3, 4, 7⟩⟩] false)

/-- Counterexample to C1 as stated: a concrete invocation whose emitted
event sequence is `conversation_id, sources, delta` — the provider raised
in mid-stream, so the sequence ends with neither a `done` nor an `error`
event and matches neither of the two claimed patterns. -/
theorem query_rag_stream_event_ordering_counterexample :
    claimedShapeB (query_rag_stream wCfg (fun _ _ => 0) wDB "q".toList 1 none
      none (.ok [1]) (.stream [⟨[⟨some "Hi".toList⟩], none⟩] true)).events =
      false ∧
    (query_rag_stream wCfg (fun _ _ => 0) wDB "q".toList 1 none none
      (.ok [1]) (.stream [⟨[⟨some "Hi".toList⟩], none⟩] true)).raised =
      true := by
  decide

/-! ## §12 History assembly (claim C6, `rag.py` lines 146–157) -/

/-- Concrete store for C6: conversation 1 already holds an earlier user
turn whose content equals the incoming question, followed by an assistant
answer. -/
def dbC6 : DB :=
  { documents := [⟨10, 1, "f.txt", ".txt", 1, [], 1⟩],
    chunks := [⟨20, 10, "c".toList, 0, 1, some [1]⟩],
    conversations := [⟨1, 1, []⟩],
    messages :=
      [⟨1, "user", "hi".toList, none, none, none, 0⟩,
       ⟨1, "assistant", "ok".toList, none, none, none, 1⟩],
    nextId := 30, clock := 2 }

/-- C6 (the code violates it): the history filter
`m.content != question or m.role != "user"` drops EVERY user message whose
content equals the question — here the earlier, legitimate user turn
`"hi"` at `created_at = 0` is removed along with the just-persisted one, so
the model input degenerates to `system, assistant, user` instead of the
claimed `system, user, assistant, user`.  This contradicts the source
comment `Exclude the user message we just saved (last one)`. -/
theorem query_rag_stream_history_drops_duplicate :
    (query_rag_stream wCfg (fun _ _ => 0) dbC6 "hi".toList 1 none (some 1)
      (.ok [1]) (.stream [] false)).llmInput.map
      (fun l => l.map Prod.fst) =
      some ["system", "assistant", "user"] ∧
    (query_rag_stream wCfg (fun _ _ => 0) dbC6 "hi".toList 1 none (some 1)
      (.ok [1]) (.stream [] false)).llmInput.map
      (fun l => l.map Prod.fst) ≠
      some ["system", "user", "assistant", "user"] := by
  constructor
  · decide
  · decide

/-! ## §13 Ingestion: claim C9 about `ingest_document` -/

/-- C9.  `ingest_document` is atomic: on any failure (type/size/text
validation, chunking, or embedding) the store is unchanged — no `Document`
row and no `DocumentChunk` row is added; on success exactly one document
row and its chunk rows are added, after all embeddings were computed, and
every persisted chunk carries its embedding. -/
theorem ingest_document_atomic (cfg : SettingsR) (enc : Encoding)
    (oracle : List Str → Nat → AttemptR) (db : DB) (file : UploadFileR)
    (user_id : Nat) :
    (∀ e, (ingest_document cfg enc oracle db file user_id).1 = .error e →
      (ingest_document cfg enc oracle db file user_id).2 = db) ∧
    (∀ docId, (ingest_document cfg enc oracle db file user_id).1 = .ok docId →
      ∃ doc rows,
        (ingest_document cfg enc oracle db file user_id).2.documents =
          db.documents ++ [doc] ∧
        (ingest_document cfg enc oracle db file user_id).2.chunks =
          db.chunks ++ rows ∧
        (ingest_document cfg enc oracle db file user_id).2.messages =
          db.messages ∧
        doc.id = docId ∧ doc.user_id = user_id ∧
        ∀ c ∈ rows, c.embedding.isSome ∧ c.document_id = docId) := by
  have key : ∀ r, ingest_document cfg enc oracle db file user_id = r →
      (∃ e, r = (.error e, db)) ∨
      (∃ doc rows, r.1 = .ok doc.id ∧ r.2.documents = db.documents ++ [doc] ∧
        r.2.chunks = db.chunks ++ rows ∧ r.2.messages = db.messages ∧
        doc.user_id = user_id ∧
        ∀ c ∈ rows, c.embedding.isSome ∧ c.document_id = doc.id) := by
    intro r hr
    rw [← hr]
    simp only [ingest_document]
    cases h1 : SUPPORTED_TYPES.contains (get_file_type
        (file.filename.getD "unknown")) with
    | false => exact Or.inl ⟨DocErr.unsupportedType, by simp [h1]⟩
    | true =>
      by_cases h2 : cfg.MAX_UPLOAD_FILE_SIZE < file.size
      · exact Or.inl ⟨DocErr.tooLarge, by simp [h1, h2]⟩
      · cases h3 : (if get_file_type (file.filename.getD "unknown") = ".pdf"
            then Except.ok file.pdfText else file.utf8Text) with
        | error a => exact Or.inl ⟨DocErr.notUtf8, by simp [h1, h2, h3]⟩
        | ok rawText =>
          by_cases h4 : pyStrip (stripControlChars rawText) = []
          · exact Or.inl ⟨DocErr.noText, by simp [h1, h2, h3, h4]⟩
          · by_cases h5 : split_text enc (stripControlChars rawText)
                cfg.CHUNK_SIZE cfg.CHUNK_OVERLAP = []
            · exact Or.inl ⟨DocErr.noChunks, by simp [h1, h2, h3, h4, h5]⟩
            · cases h6 : embed_texts oracle (List.map (fun c => c.content)
                  (split_text enc (stripControlChars rawText) cfg.CHUNK_SIZE
                    cfg.CHUNK_OVERLAP)) with
              | error e =>
                exact Or.inl ⟨DocErr.embedFailed e,
                  by simp [h1, h2, h3, h4, h5, h6]⟩
              | ok embeddings =>
                refine Or.inr ⟨⟨db.nextId, user_id,
                  file.filename.getD "unknown",
                  get_file_type (file.filename.getD "unknown"), file.size,
                  stripControlChars rawText,
                  (split_text enc (stripControlChars rawText) cfg.CHUNK_SIZE
                    cfg.CHUNK_OVERLAP).length⟩,
                  ((split_text enc (stripControlChars rawText) cfg.CHUNK_SIZE
                    cfg.CHUNK_OVERLAP).zip embeddings).enum.map (fun ie =>
                    ⟨db.nextId + 1 + ie.1, db.nextId, ie.2.1.content,
                     ie.2.1.chunk_index, ie.2.1.token_count, some ie.2.2⟩),
                  ?_, ?_, ?_, ?_, ?_, ?_⟩
                · simp [h1, h2, h3, h4, h5, h6]
                · simp [h1, h2, h3, h4, h5, h6]
                · simp [h1, h2, h3, h4, h5, h6]
                · simp [h1, h2, h3, h4, h5, h6]
                · simp
                · intro c hc
                  simp only [List.mem_map] at hc
                  obtain ⟨ie, hie, rfl⟩ := hc
                  simp
  constructor
  · intro e he
    rcases key _ rfl with ⟨e2, h2⟩ | ⟨doc, rows, h1, -⟩
    · rw [h2]
    · rw [he] at h1; simp at h1
  · intro docId hok
    rcases key _ rfl with ⟨e2, h2⟩ | ⟨doc, rows, h1, hd, hc, hm, hu, hrows⟩
    · rw [h2] at hok; simp at hok
    · rw [hok] at h1
      simp only [Except.ok.injEq] at h1
      exact ⟨doc, rows, hd, hc, hm, h1.symm, hu, fun c hcm =>
        ⟨(hrows c hcm).1, by rw [(hrows c hcm).2, h1]⟩⟩

/-! ## §14 Chunking: claim C3

First the `pyStrip` toolkit, then the concrete tokenizer laws, then the
inductive size bound on the splitter. -/

theorem pyStrip_sublist (s : Str) : (pyStrip s).Sublist s := by
  unfold pyStrip
  have h1 : (s.dropWhile isWs).Sublist s := List.dropWhile_sublist isWs
  have h2 : ((s.dropWhile isWs).reverse.dropWhile isWs).Sublist
      (s.dropWhile isWs).reverse := List.dropWhile_sublist isWs
  have h3 := h2.reverse
  simp only [List.reverse_reverse] at h3
  exact h3.trans h1

theorem pyStrip_eq_nil_iff (s : Str) :
    pyStrip s = [] ↔ ∀ c ∈ s, isWs c = true := by
  unfold pyStrip
  constructor
  · intro h c hc
    rw [List.reverse_eq_nil_iff, List.dropWhile_eq_nil_iff] at h
    by_cases hws : isWs c = true
    · exact hws
    · exfalso
      have hc2 : c ∈ s.dropWhile isWs := by
        by_contra hmem
        have : c ∈ s.takeWhile isWs := by
          have := List.takeWhile_append_dropWhile (p := isWs) (l := s)
          rw [← this] at hc
          rcases List.mem_append.mp hc with h' | h'
          · exact h'
          · exact absurd h' hmem
        exact hws (List.mem_takeWhile_imp this)
      exact hws (h c (by simpa using hc2))
  · intro h
    have h1 : s.dropWhile isWs = [] :=
      List.dropWhile_eq_nil_iff.mpr (fun x hx => h x hx)
    simp [h1]

theorem trailingWs_pyStrip (s : Str) :
    (pyStrip s).getLast?.all (fun c => !isWs c) = true := by
  unfold pyStrip
  rw [List.getLast?_reverse]
  cases hm : (s.dropWhile isWs).reverse.dropWhile isWs with
  | nil => simp
  | cons c t =>
    have hne : (s.dropWhile isWs).reverse.dropWhile isWs ≠ [] := by
      simp [hm]
    have := List.head_dropWhile_not isWs (s.dropWhile isWs).reverse hne
    simp only [hm] at this ⊢
    simp at this ⊢
    exact this

theorem pyStrip_ne_nil_of_member {y : Str} {c : Char} (hc : c ∈ y)
    (hw : isWs c = false) : pyStrip y ≠ [] := by
  intro h
  rw [pyStrip_eq_nil_iff] at h
  rw [h c hc] at hw
  cases hw

theorem exists_nonWs_of_pyStrip_ne {y : Str} (h : pyStrip y ≠ []) :
    ∃ c ∈ pyStrip y, isWs c = false := by
  have hlast := trailingWs_pyStrip y
  cases hm : (pyStrip y).getLast? with
  | none => exact absurd (List.getLast?_eq_none_iff.mp hm) h
  | some c =>
    refine ⟨c, List.mem_of_mem_getLast? hm, ?_⟩
    rw [hm] at hlast
    simpa using hlast

theorem pyStrip_pyStrip_ne {y : Str} (h : pyStrip y ≠ []) :
    pyStrip (pyStrip y) ≠ [] := by
  obtain ⟨c, hc, hw⟩ := exists_nonWs_of_pyStrip_ne h
  exact pyStrip_ne_nil_of_member hc hw

/-- Number of non-whitespace characters, the token count of a stripped
string under `tokModel`. -/
def nonWsCount (s : Str) : Nat := (s.filter (fun c => !(isWs c))).length

/-- Whether a string ends in a whitespace character. -/
def trailingWs (s : Str) : Bool :=
  match s.getLast? with
  | some c => isWs c
  | none => false

theorem trailingWs_cons (c : Char) (t : Str) :
    trailingWs (c :: t) = if t = [] then isWs c else trailingWs t := by
  unfold trailingWs
  cases t with
  | nil => simp
  | cons d t2 => simp [List.getLast?_cons_cons]

theorem tokenizeAux_length (s : Str) : ∀ pend : Str,
    (tokenizeAux pend s).length =
      nonWsCount s + (if s = [] then (if pend = [] then 0 else 1)
        else (if trailingWs s then 1 else 0)) := by
  induction s with
  | nil =>
    intro pend
    by_cases hp : pend = [] <;> simp [tokenizeAux, hp, nonWsCount]
  | cons c t ih =>
    intro pend
    by_cases hw : isWs c
    · rw [show tokenizeAux pend (c :: t) = tokenizeAux (pend ++ [c]) t by
        simp [tokenizeAux, hw]]
      rw [ih (pend ++ [c])]
      have hnw : nonWsCount (c :: t) = nonWsCount t := by
        simp [nonWsCount, hw]
      rw [trailingWs_cons]
      by_cases ht : t = []
      · subst ht; simp [hnw, hw]
      · simp [hnw, ht]
    · rw [show tokenizeAux pend (c :: t) = (pend ++ [c]) :: tokenizeAux [] t by
        simp [tokenizeAux, hw]]
      simp only [List.length_cons]
      rw [ih []]
      have hnw : nonWsCount (c :: t) = nonWsCount t + 1 := by
        simp [nonWsCount, hw]
      rw [trailingWs_cons]
      by_cases ht : t = []
      · subst ht; simp [hnw, hw]
      · simp [hnw, ht]
        omega

theorem tokenizeAux_token_nonWs (s : Str) : ∀ pend : Str,
    (∀ c ∈ pend, isWs c = true) →
    ∀ tok ∈ tokenizeAux pend s, nonWsCount tok ≤ 1 := by
  induction s with
  | nil =>
    intro pend hp tok htok
    unfold tokenizeAux at htok
    by_cases hpe : pend = []
    · simp [hpe] at htok
    · simp [hpe] at htok
      subst htok
      have : nonWsCount tok = 0 := by
        simp only [nonWsCount, List.length_eq_zero]
        rw [List.filter_eq_nil_iff]
        intro c hc
        simp [hp c hc]
      omega
  | cons c t ih =>
    intro pend hp tok htok
    by_cases hw : isWs c
    · rw [show tokenizeAux pend (c :: t) = tokenizeAux (pend ++ [c]) t by
        simp [tokenizeAux, hw]] at htok
      refine ih (pend ++ [c]) ?_ tok htok
      intro x hx
      rcases List.mem_append.mp hx with h | h
      · exact hp x h
      · simp at h; subst h; exact hw
    · rw [show tokenizeAux pend (c :: t) = (pend ++ [c]) :: tokenizeAux [] t by
        simp [tokenizeAux, hw]] at htok
      rcases List.mem_cons.mp htok with rfl | h
      · have hpend : nonWsCount pend = 0 := by
          simp only [nonWsCount, List.length_eq_zero]
          rw [List.filter_eq_nil_iff]
          intro x hx
          simp [hp x hx]
        have hsplit : nonWsCount (pend ++ [c]) =
            nonWsCount pend + nonWsCount [c] := by
          simp [nonWsCount, List.filter_append]
        rw [hsplit, hpend]
        simp [nonWsCount, hw]
      · exact ih [] (by simp) tok h

theorem count_tokens_tokModel (y : Str) :
    count_tokens tokModel y =
      nonWsCount y + (if y = [] then 0 else (if trailingWs y then 1 else 0)) := by
  show (tokenizeAux [] y).length = _
  rw [tokenizeAux_length y []]
  by_cases hy : y = [] <;> simp [hy]

theorem trailingWs_pyStrip_false (y : Str) : trailingWs (pyStrip y) = false := by
  unfold trailingWs
  have := trailingWs_pyStrip y
  cases hm : (pyStrip y).getLast? with
  | none => rfl
  | some c =>
    rw [hm] at this
    simpa using this

theorem count_tokens_pyStrip (y : Str) :
    count_tokens tokModel (pyStrip y) = nonWsCount (pyStrip y) := by
  rw [count_tokens_tokModel, trailingWs_pyStrip_false]
  by_cases h : pyStrip y = [] <;> simp [h, nonWsCount]

theorem nonWsCount_sublist {l1 l2 : Str} (h : l1.Sublist l2) :
    nonWsCount l1 ≤ nonWsCount l2 :=
  (h.filter (fun c => !(isWs c))).length_le

theorem nonWsCount_le_count (y : Str) : nonWsCount y ≤ count_tokens tokModel y := by
  rw [count_tokens_tokModel]
  omega

theorem sum_le_length {α : Type} (f : α → Nat) :
    ∀ L : List α, (∀ x ∈ L, f x ≤ 1) → (L.map f).sum ≤ L.length := by
  intro L
  induction L with
  | nil => simp
  | cons x t ih =>
    intro h
    simp only [List.map_cons, List.sum_cons, List.length_cons]
    have h1 := h x (by simp)
    have h2 := ih (fun y hy => h y (by simp [hy]))
    omega

theorem nonWsCount_flatten (T : List Str) :
    nonWsCount T.flatten = (T.map nonWsCount).sum := by
  unfold nonWsCount
  rw [List.filter_flatten, List.length_flatten, List.map_map]
  rfl

/-- The concrete tokenizer model satisfies the BPE structural laws. -/
theorem tokModel_laws : EncodingLaws tokModel := by
  refine ⟨rfl, ?_, ?_, ?_⟩
  · intro s
    calc count_tokens tokModel (pyStrip s) = nonWsCount (pyStrip s) :=
          count_tokens_pyStrip s
      _ ≤ nonWsCount s := nonWsCount_sublist (pyStrip_sublist s)
      _ ≤ count_tokens tokModel s := nonWsCount_le_count s
  · intro s k
    have hdec : tokModel.decode ((tokModel.encode s).drop k) =
        ((tokModel.encode s).drop k).flatten := rfl
    rw [hdec]
    calc count_tokens tokModel (pyStrip ((tokModel.encode s).drop k).flatten)
        = nonWsCount (pyStrip ((tokModel.encode s).drop k).flatten) :=
          count_tokens_pyStrip _
      _ ≤ nonWsCount ((tokModel.encode s).drop k).flatten :=
          nonWsCount_sublist (pyStrip_sublist _)
      _ = (((tokModel.encode s).drop k).map nonWsCount).sum :=
          nonWsCount_flatten _
      _ ≤ ((tokModel.encode s).drop k).length := by
          apply sum_le_length
          intro tok htok
          exact tokenizeAux_token_nonWs s [] (by simp) tok
            ((List.drop_subset k _) htok)
  · intro a b hb
    have hws : isWs ' ' = true := by decide
    have hnw : nonWsCount (a ++ ' ' :: b) = nonWsCount a + nonWsCount b := by
      simp [nonWsCount, List.filter_append, hws]
    have hne : a ++ ' ' :: b ≠ [] := by simp
    have htrail : trailingWs (a ++ ' ' :: b) = trailingWs b := by
      unfold trailingWs
      rw [List.getLast?_append]
      cases hbl : b.getLast? with
      | none => exact absurd (List.getLast?_eq_none_iff.mp hbl) hb
      | some c =>
        have : (' ' :: b).getLast? = some c := by
          cases b with
          | nil => exact absurd rfl hb
          | cons d t => rw [List.getLast?_cons_cons, hbl]
        rw [this]
        rfl
    rw [count_tokens_tokModel (a ++ ' ' :: b), count_tokens_tokModel a,
      count_tokens_tokModel b, hnw, htrail, if_neg hne]
    by_cases ha : a = []
    · subst ha
      simp only [if_pos rfl, if_neg hb]
      simp
      omega
    · rw [if_neg ha, if_neg hb]
      omega

theorem startsWithSep_iff {sep x : Str} :
    startsWithSep sep x = true ↔ x.take sep.length = sep := by
  simp [startsWithSep]

theorem splitFirst_min {sep s pre post : Str} :
    splitFirst sep s = some (pre, post) → splitFirst sep pre = none := by
  induction s generalizing pre post with
  | nil => intro h; simp [splitFirst] at h
  | cons c t ih =>
    intro h
    simp only [splitFirst] at h
    split at h
    · simp only [Option.some.injEq, Prod.mk.injEq] at h
      rw [← h.1]
      rfl
    · rename_i hsw
      split at h
      · rename_i pre' post' heq
        simp only [Option.some.injEq, Prod.mk.injEq] at h
        obtain ⟨h1, h2⟩ := h
        subst h1
        have hmin := ih heq
        have hdec := splitFirst_decomp heq
        simp only [splitFirst]
        split
        · rename_i hsw2
          exfalso
          apply hsw
          rw [startsWithSep_iff] at hsw2 ⊢
          have hlen : sep.length ≤ (c :: pre').length := by
            have hlt := congrArg List.length hsw2
            rw [List.length_take] at hlt
            omega
          have : (c :: t).take sep.length = (c :: pre').take sep.length := by
            rw [hdec]
            cases hsl : sep.length with
            | zero => rfl
            | succ m =>
              simp only [List.take_succ_cons]
              congr 1
              simp only [List.length_cons] at hlen
              rw [hsl] at hlen
              rw [List.append_assoc, List.take_append_of_le_length (by omega)]
          rw [this, hsw2]
        · rw [hmin]
      · exact absurd h (by simp)

theorem pySplit_nil_sep (s : Str) : pySplit [] s = [s] := by
  rw [pySplit]
  simp

theorem pySplit_of_none {sep s : Str} (h : splitFirst sep s = none) :
    pySplit sep s = [s] := by
  rw [pySplit]
  split
  · rfl
  · split
    · rfl
    · rename_i heq
      rw [h] at heq
      cases heq

theorem pySplit_no_occ {sep : Str} (hsep : sep ≠ []) :
    ∀ (s : Str), ∀ p ∈ pySplit sep s, splitFirst sep p = none := by
  intro s
  induction s using pySplit.induct sep with
  | case1 x h => exact absurd h hsep
  | case2 x h hnone =>
    rw [pySplit_of_none hnone]
    intro p hp
    simp at hp
    subst hp
    exact hnone
  | case3 x h pre post heq ih =>
    rw [pySplit, dif_neg h, heq]
    intro p hp
    rcases List.mem_cons.mp hp with rfl | hmem
    · exact splitFirst_min heq
    · exact ih p hmem

theorem atoms_cons_of_absent {sep s : Str} {rest : List Str}
    (h : sep = [] ∨ splitFirst sep s = none) :
    atoms (sep :: rest) s = atoms rest s := by
  have hps : pySplit sep s = [s] := by
    rcases h with rfl | h
    · exact pySplit_nil_sep s
    · exact pySplit_of_none h
  simp [atoms, hps]

theorem atoms_mem {sep s p a : Str} {rest : List Str}
    (hp : p ∈ pySplit sep s) (ha : a ∈ atoms rest p) :
    a ∈ atoms (sep :: rest) s := by
  simp only [atoms, List.mem_flatten]
  exact ⟨atoms rest p, List.mem_map_of_mem (atoms rest) hp, ha⟩

theorem atoms_pre_absent {s : Str} :
    ∀ (pre : List Str) (l : List Str),
      (∀ x ∈ pre, x = [] ∨ splitFirst x s = none) →
      atoms (pre ++ l) s = atoms l s := by
  intro pre
  induction pre with
  | nil => intro l _; rfl
  | cons x t ih =>
    intro l h
    rw [List.cons_append, atoms_cons_of_absent (h x (by simp))]
    exact ih l (fun y hy => h y (by simp [hy]))

theorem flatten_map_singleton {α : Type} (l : List α) :
    (l.map (fun x => [x])).flatten = l := by
  induction l with
  | nil => rfl
  | cons q t ih => simp only [List.map_cons, List.flatten_cons, ih]; rfl

theorem atoms_singleton_sep (sep : Str) (s : Str) :
    atoms [sep] s = pySplit sep s := by
  show ((pySplit sep s).map (atoms [])).flatten = _
  have : (atoms ([] : List Str)) = (fun x : Str => [x]) := by
    funext x; rfl
  rw [this, flatten_map_singleton]

theorem atoms_spc_twice (part : Str) :
    atoms [[' '], [' ']] part = atoms [[' ']] part := by
  have hspc : ([' '] : Str) ≠ [] := by simp
  have hq : ∀ q ∈ pySplit [' '] part, atoms [[' ']] q = [q] := by
    intro q hq
    rw [atoms_singleton_sep, pySplit_of_none (pySplit_no_occ hspc part q hq)]
  show ((pySplit [' '] part).map (atoms [[' ']])).flatten = _
  rw [List.map_congr_left hq, flatten_map_singleton, atoms_singleton_sep]

theorem findSep_split {seps : List Str} {s sep : Str} {remaining : List Str} :
    findSep seps s = some (sep, remaining) →
    ∃ pre rest, seps = pre ++ sep :: rest ∧
      (∀ x ∈ pre, x = [] ∨ splitFirst x s = none) ∧
      remaining = (if rest = [] then [[' ']] else rest) ∧
      sep ≠ [] ∧ (splitFirst sep s).isSome := by
  induction seps with
  | nil => intro h; simp [findSep] at h
  | cons x rest0 ih =>
    intro h
    simp only [findSep] at h
    split at h
    · rename_i hc
      simp only [Option.some.injEq, Prod.mk.injEq] at h
      obtain ⟨rfl, rfl⟩ := h
      exact ⟨[], rest0, rfl, by simp, rfl, hc.1, hc.2⟩
    · rename_i hc
      obtain ⟨pre, rest, h1, h2, h3, h4, h5⟩ := ih h
      refine ⟨x :: pre, rest, by simp [h1], ?_, h3, h4, h5⟩
      intro y hy
      rcases List.mem_cons.mp hy with rfl | hmem
      · by_cases hx : y = []
        · exact Or.inl hx
        · refine Or.inr ?_
          rw [← Option.not_isSome_iff_eq_none]
          intro hocc
          exact hc ⟨hx, hocc⟩
      · exact h2 y hmem

theorem findSep_none {seps : List Str} {s : Str} :
    findSep seps s = none →
    ∀ x ∈ seps, x = [] ∨ splitFirst x s = none := by
  induction seps with
  | nil => intro _ x hx; cases hx
  | cons y rest ih =>
    intro h x hx
    simp only [findSep] at h
    split at h
    · cases h
    · rename_i hc
      rcases List.mem_cons.mp hx with rfl | hmem
      · by_cases hy : x = []
        · exact Or.inl hy
        · refine Or.inr ?_
          rw [← Option.not_isSome_iff_eq_none]
          intro hocc
          exact hc ⟨hy, hocc⟩
      · exact ih h x hmem

theorem count_tokens_nil {enc : Encoding} (hL : EncodingLaws enc) :
    count_tokens enc [] = 0 := by
  simp [count_tokens, hL.encode_nil]

theorem mem_flushChunk {current c : Str} (hc : c ∈ flushChunk current) :
    c = pyStrip current ∧ pyStrip current ≠ [] := by
  unfold flushChunk at hc
  by_cases h : pyStrip current = []
  · simp [h] at hc
  · simp [h] at hc
    exact ⟨hc, h⟩

theorem packParts_le {enc : Encoding} (hL : EncodingLaws enc)
    {chunk_size : Nat} {sep : Str} :
    ∀ (pairs : List (Str × List Str)) (chunks : List Str) (current : Str),
      (∀ c ∈ chunks, count_tokens enc c ≤ chunk_size) →
      count_tokens enc current ≤ chunk_size →
      (∀ pr ∈ pairs, chunk_size < count_tokens enc pr.1 →
        ∀ c ∈ pr.2, count_tokens enc c ≤ chunk_size) →
      ∀ c ∈ packParts enc chunk_size sep pairs chunks current,
        count_tokens enc c ≤ chunk_size := by
  intro pairs
  induction pairs with
  | nil =>
    intro chunks current hch hcur hpr c hc
    rw [packParts] at hc
    rcases List.mem_append.mp hc with h | h
    · exact hch c h
    · obtain ⟨rfl, -⟩ := mem_flushChunk h
      exact le_trans (hL.strip_le current) hcur
  | cons pr rest ih =>
    intro chunks current hch hcur hpr c hc
    obtain ⟨part, sub⟩ := pr
    simp only [packParts] at hc
    by_cases hc0 : current = []
    · rw [if_pos hc0] at hc
      split at hc
      · rename_i hcand
        exact ih chunks _ hch hcand (fun q hq => hpr q (by simp [hq])) c hc
      · split at hc
        · rename_i hbig
          refine ih _ [] ?_ (by rw [count_tokens_nil hL]; omega)
            (fun q hq => hpr q (by simp [hq])) c hc
          intro x hx
          rcases List.mem_append.mp hx with h2 | h2
          · rcases List.mem_append.mp h2 with h3 | h3
            · exact hch x h3
            · obtain ⟨rfl, -⟩ := mem_flushChunk h3
              exact le_trans (hL.strip_le current) hcur
          · exact hpr (part, sub) (by simp) hbig x h2
        · rename_i hbig
          refine ih _ part ?_ (by omega)
            (fun q hq => hpr q (by simp [hq])) c hc
          intro x hx
          rcases List.mem_append.mp hx with h2 | h2
          · exact hch x h2
          · obtain ⟨rfl, -⟩ := mem_flushChunk h2
            exact le_trans (hL.strip_le current) hcur
    · rw [if_neg hc0] at hc
      split at hc
      · rename_i hcand
        exact ih chunks _ hch hcand (fun q hq => hpr q (by simp [hq])) c hc
      · split at hc
        · rename_i hbig
          refine ih _ [] ?_ (by rw [count_tokens_nil hL]; omega)
            (fun q hq => hpr q (by simp [hq])) c hc
          intro x hx
          rcases List.mem_append.mp hx with h2 | h2
          · rcases List.mem_append.mp h2 with h3 | h3
            · exact hch x h3
            · obtain ⟨rfl, -⟩ := mem_flushChunk h3
              exact le_trans (hL.strip_le current) hcur
          · exact hpr (part, sub) (by simp) hbig x h2
        · rename_i hbig
          refine ih _ part ?_ (by omega)
            (fun q hq => hpr q (by simp [hq])) c hc
          intro x hx
          rcases List.mem_append.mp hx with h2 | h2
          · exact hch x h2
          · obtain ⟨rfl, -⟩ := mem_flushChunk h2
            exact le_trans (hL.strip_le current) hcur

theorem packWords_le {enc : Encoding} (hL : EncodingLaws enc)
    {chunk_size : Nat} :
    ∀ (ws : List Str) (chunks : List Str) (current : Str),
      (∀ c ∈ chunks, count_tokens enc c ≤ chunk_size) →
      count_tokens enc current ≤ chunk_size →
      (∀ w ∈ ws, count_tokens enc w ≤ chunk_size) →
      ∀ c ∈ packWords enc chunk_size ws chunks current,
        count_tokens enc c ≤ chunk_size := by
  intro ws
  induction ws with
  | nil =>
    intro chunks current hch hcur hws c hc
    rw [packWords] at hc
    rcases List.mem_append.mp hc with h | h
    · exact hch c h
    · obtain ⟨rfl, -⟩ := mem_flushChunk h
      exact le_trans (hL.strip_le current) hcur
  | cons w rest ih =>
    intro chunks current hch hcur hws c hc
    simp only [packWords] at hc
    by_cases hc0 : current = []
    · rw [if_pos hc0] at hc
      split at hc
      · rename_i hcand
        exact ih chunks _ hch hcand (fun q hq => hws q (by simp [hq])) c hc
      · refine ih _ w ?_ (hws w (by simp))
          (fun q hq => hws q (by simp [hq])) c hc
        intro x hx
        rcases List.mem_append.mp hx with h2 | h2
        · exact hch x h2
        · obtain ⟨rfl, -⟩ := mem_flushChunk h2
          exact le_trans (hL.strip_le current) hcur
    · rw [if_neg hc0] at hc
      split at hc
      · rename_i hcand
        exact ih chunks _ hch hcand (fun q hq => hws q (by simp [hq])) c hc
      · refine ih _ w ?_ (hws w (by simp))
          (fun q hq => hws q (by simp [hq])) c hc
        intro x hx
        rcases List.mem_append.mp hx with h2 | h2
        · exact hch x h2
        · obtain ⟨rfl, -⟩ := mem_flushChunk h2
          exact le_trans (hL.strip_le current) hcur

theorem splitTextRec_le {enc : Encoding} (hL : EncodingLaws enc)
    {chunk_size : Nat} :
    ∀ (n : Nat) (s : Str), s.length ≤ n → ∀ (seps : List Str),
      (∀ a ∈ atoms (seps ++ [[' ']]) s, count_tokens enc a ≤ chunk_size) →
      ∀ c ∈ splitTextRec enc chunk_size seps s,
        count_tokens enc c ≤ chunk_size := by
  intro n
  induction n with
  | zero =>
    intro s hlen seps hat c hc
    have hs : s = [] := by
      cases s with
      | nil => rfl
      | cons a t => simp at hlen
    subst hs
    rw [splitTextRec] at hc
    simp [pyStrip] at hc
  | succ n ih =>
    intro s hlen seps hat c hc
    rw [splitTextRec] at hc
    by_cases h1 : pyStrip s = []
    · rw [if_pos h1] at hc; simp at hc
    · rw [if_neg h1] at hc
      by_cases h2 : count_tokens enc s ≤ chunk_size
      · rw [if_pos h2, if_neg h1] at hc
        simp at hc
        subst hc
        exact le_trans (hL.strip_le s) h2
      · rw [if_neg h2] at hc
        split at hc
        · rename_i sep remaining hfs
          obtain ⟨pre, rest, hseps, hpre, hrem, hsepne, hocc⟩ :=
            findSep_split hfs
          have hatoms_s : ∀ a ∈ atoms (sep :: (rest ++ [[' ']])) s,
              count_tokens enc a ≤ chunk_size := by
            intro a ha
            apply hat
            rw [hseps, List.append_assoc]
            rw [atoms_pre_absent pre _ hpre]
            exact ha
          have hpairs : ∀ pr ∈ (pySplit sep s).attach.map (fun p =>
              (p.1, if chunk_size < count_tokens enc p.1
                    then splitTextRec enc chunk_size remaining p.1 else [])),
              chunk_size < count_tokens enc pr.1 →
              ∀ c2 ∈ pr.2, count_tokens enc c2 ≤ chunk_size := by
            intro pr hpr hbig c2 hc2
            simp only [List.mem_map] at hpr
            obtain ⟨p, hp_attach, rfl⟩ := hpr
            simp only at hbig hc2
            rw [if_pos hbig] at hc2
            have hplen : p.1.length < s.length :=
              pySplit_len_lt hsepne hocc p.1 p.2
            refine ih p.1 (by omega) remaining ?_ c2 hc2
            intro a ha
            by_cases hrest : rest = []
            · subst hrest
              have hremv : remaining = [[' ']] := by
                rw [hrem]; simp
              rw [hremv] at ha
              have ha2 : a ∈ atoms [[' ']] p.1 := by
                rw [← atoms_spc_twice]
                exact ha
              exact hatoms_s a (atoms_mem p.2 ha2)
            · have hremv : remaining = rest := by rw [hrem, if_neg hrest]
              rw [hremv] at ha
              exact hatoms_s a (atoms_mem p.2 ha)
          exact packParts_le hL _ [] [] (by simp)
            (by rw [count_tokens_nil hL]; omega) hpairs c hc
        · rename_i hfs
          have habs := findSep_none hfs
          refine packWords_le hL _ [] [] (by simp)
            (by rw [count_tokens_nil hL]; omega) ?_ c hc
          intro w hw
          apply hat
          rw [atoms_pre_absent seps [[' ']] habs, atoms_singleton_sep]
          exact hw

theorem packParts_form {enc : Encoding} {chunk_size : Nat} {sep : Str} :
    ∀ (pairs : List (Str × List Str)) (chunks : List Str) (current : Str),
      (∀ c ∈ chunks, pyStrip c ≠ [] ∧ c ≠ []) →
      (∀ pr ∈ pairs, ∀ c ∈ pr.2, pyStrip c ≠ [] ∧ c ≠ []) →
      ∀ c ∈ packParts enc chunk_size sep pairs chunks current,
        pyStrip c ≠ [] ∧ c ≠ [] := by
  intro pairs
  induction pairs with
  | nil =>
    intro chunks current hch hpr c hc
    rw [packParts] at hc
    rcases List.mem_append.mp hc with h | h
    · exact hch c h
    · obtain ⟨rfl, hne⟩ := mem_flushChunk h
      exact ⟨pyStrip_pyStrip_ne hne, hne⟩
  | cons pr rest ih =>
    intro chunks current hch hpr c hc
    obtain ⟨part, sub⟩ := pr
    have hflush : ∀ c2 ∈ chunks ++ flushChunk current,
        pyStrip c2 ≠ [] ∧ c2 ≠ [] := by
      intro x hx
      rcases List.mem_append.mp hx with h2 | h2
      · exact hch x h2
      · obtain ⟨rfl, hne⟩ := mem_flushChunk h2
        exact ⟨pyStrip_pyStrip_ne hne, hne⟩
    simp only [packParts] at hc
    by_cases hc0 : current = []
    · rw [if_pos hc0] at hc
      split at hc
      · exact ih chunks _ hch (fun q hq => hpr q (by simp [hq])) c hc
      · split at hc
        · refine ih _ [] ?_ (fun q hq => hpr q (by simp [hq])) c hc
          intro x hx
          rcases List.mem_append.mp hx with h2 | h2
          · exact hflush x h2
          · exact hpr (part, sub) (by simp) x h2
        · exact ih _ part hflush (fun q hq => hpr q (by simp [hq])) c hc
    · rw [if_neg hc0] at hc
      split at hc
      · exact ih chunks _ hch (fun q hq => hpr q (by simp [hq])) c hc
      · split at hc
        · refine ih _ [] ?_ (fun q hq => hpr q (by simp [hq])) c hc
          intro x hx
          rcases List.mem_append.mp hx with h2 | h2
          · exact hflush x h2
          · exact hpr (part, sub) (by simp) x h2
        · exact ih _ part hflush (fun q hq => hpr q (by simp [hq])) c hc

theorem packWords_form {enc : Encoding} {chunk_size : Nat} :
    ∀ (ws : List Str) (chunks : List Str) (current : Str),
      (∀ c ∈ chunks, pyStrip c ≠ [] ∧ c ≠ []) →
      ∀ c ∈ packWords enc chunk_size ws chunks current,
        pyStrip c ≠ [] ∧ c ≠ [] := by
  intro ws
  induction ws with
  | nil =>
    intro chunks current hch c hc
    rw [packWords] at hc
    rcases List.mem_append.mp hc with h | h
    · exact hch c h
    · obtain ⟨rfl, hne⟩ := mem_flushChunk h
      exact ⟨pyStrip_pyStrip_ne hne, hne⟩
  | cons w rest ih =>
    intro chunks current hch c hc
    simp only [packWords] at hc
    by_cases hc0 : current = []
    · rw [if_pos hc0] at hc
      split at hc
      · exact ih chunks _ hch c hc
      · refine ih _ w ?_ c hc
        intro x hx
        rcases List.mem_append.mp hx with h2 | h2
        · exact hch x h2
        · obtain ⟨rfl, hne⟩ := mem_flushChunk h2
          exact ⟨pyStrip_pyStrip_ne hne, hne⟩
    · rw [if_neg hc0] at hc
      split at hc
      · exact ih chunks _ hch c hc
      · refine ih _ w ?_ c hc
        intro x hx
        rcases List.mem_append.mp hx with h2 | h2
        · exact hch x h2
        · obtain ⟨rfl, hne⟩ := mem_flushChunk h2
          exact ⟨pyStrip_pyStrip_ne hne, hne⟩

theorem splitTextRec_form {enc : Encoding} {chunk_size : Nat} :
    ∀ (n : Nat) (s : Str), s.length ≤ n → ∀ (seps : List Str),
      ∀ c ∈ splitTextRec enc chunk_size seps s,
        pyStrip c ≠ [] ∧ c ≠ [] := by
  intro n
  induction n with
  | zero =>
    intro s hlen seps c hc
    have hs : s = [] := by
      cases s with
      | nil => rfl
      | cons a t => simp at hlen
    subst hs
    rw [splitTextRec] at hc
    simp [pyStrip] at hc
  | succ n ih =>
    intro s hlen seps c hc
    rw [splitTextRec] at hc
    by_cases h1 : pyStrip s = []
    · rw [if_pos h1] at hc; simp at hc
    · rw [if_neg h1] at hc
      by_cases h2 : count_tokens enc s ≤ chunk_size
      · rw [if_pos h2, if_neg h1] at hc
        simp at hc
        subst hc
        exact ⟨pyStrip_pyStrip_ne h1, h1⟩
      · rw [if_neg h2] at hc
        split at hc
        · rename_i sep remaining hfs
          obtain ⟨hsepne, hocc⟩ := findSep_occ hfs
          refine packParts_form _ [] [] (by simp) ?_ c hc
          intro pr hpr c2 hc2
          simp only [List.mem_map] at hpr
          obtain ⟨p, hp_attach, rfl⟩ := hpr
          simp only at hc2
          by_cases hbig : chunk_size < count_tokens enc p.1
          · rw [if_pos hbig] at hc2
            have hplen : p.1.length < s.length :=
              pySplit_len_lt hsepne hocc p.1 p.2
            exact ih p.1 (by omega) remaining c2 hc2
          · rw [if_neg hbig] at hc2
            simp at hc2
        · exact packWords_form _ [] [] (by simp) c hc

theorem applyOverlapOne_spec {enc : Encoding} (hL : EncodingLaws enc)
    {chunk_size chunk_overlap : Nat} {prev cur : Str}
    (hprev : count_tokens enc prev ≤ chunk_size ∧ pyStrip prev ≠ [] ∧
      prev ≠ [])
    (hcur : count_tokens enc cur ≤ chunk_size ∧ pyStrip cur ≠ [] ∧
      cur ≠ []) :
    count_tokens enc (applyOverlapOne enc chunk_overlap prev cur) ≤
      chunk_size + chunk_overlap ∧
    pyStrip (applyOverlapOne enc chunk_overlap prev cur) ≠ [] := by
  simp only [applyOverlapOne]
  by_cases hov : pyStrip (enc.decode
      (if chunk_overlap < (enc.encode prev).length then
        (enc.encode prev).drop ((enc.encode prev).length - chunk_overlap)
      else enc.encode prev)) = []
  · rw [if_pos hov]
    exact ⟨by have := hcur.1; omega, hcur.2.1⟩
  · rw [if_neg hov]
    constructor
    · have hjoin := hL.join_le
        (pyStrip (enc.decode
          (if chunk_overlap < (enc.encode prev).length then
            (enc.encode prev).drop ((enc.encode prev).length - chunk_overlap)
          else enc.encode prev))) cur hcur.2.2
      have hotext : count_tokens enc (pyStrip (enc.decode
          (if chunk_overlap < (enc.encode prev).length then
            (enc.encode prev).drop ((enc.encode prev).length - chunk_overlap)
          else enc.encode prev))) ≤ chunk_overlap := by
        by_cases hlt : chunk_overlap < (enc.encode prev).length
        · rw [if_pos hlt]
          have := hL.tail_recount_le prev
            ((enc.encode prev).length - chunk_overlap)
          refine le_trans this ?_
          rw [List.length_drop]
          omega
        · rw [if_neg hlt]
          have := hL.tail_recount_le prev 0
          simp only [List.drop_zero] at this
          refine le_trans this ?_
          omega
      calc count_tokens enc _ ≤ _ + count_tokens enc cur := hjoin
        _ ≤ chunk_overlap + chunk_size := by
            have := hcur.1
            omega
        _ = chunk_size + chunk_overlap := by omega
    · obtain ⟨cnw, hcnw_mem, hcnw⟩ := exists_nonWs_of_pyStrip_ne hcur.2.1
      have : cnw ∈ cur := (pyStrip_sublist cur).subset hcnw_mem
      exact pyStrip_ne_nil_of_member (by simp [this]) hcnw

theorem apply_overlap_spec {enc : Encoding} (hL : EncodingLaws enc)
    {chunk_size chunk_overlap : Nat} (raw : List Str)
    (hraw : ∀ r ∈ raw, count_tokens enc r ≤ chunk_size ∧ pyStrip r ≠ [] ∧
      r ≠ []) :
    ∀ c ∈ apply_overlap enc raw chunk_overlap,
      count_tokens enc c ≤ chunk_size + chunk_overlap ∧ pyStrip c ≠ [] := by
  intro c hc
  unfold apply_overlap at hc
  split at hc
  · obtain ⟨hb, hn, -⟩ := hraw c hc
    exact ⟨by omega, hn⟩
  · split at hc
    · simp at hc
    · rename_i first rest hg
      rcases List.mem_cons.mp hc with rfl | hmem
      · obtain ⟨hb, hn, -⟩ := hraw c (by simp)
        exact ⟨by omega, hn⟩
      · simp only [List.mem_map] at hmem
        obtain ⟨pc, hpc, rfl⟩ := hmem
        have hmem2 := List.of_mem_zip hpc
        exact applyOverlapOne_spec hL (hraw pc.1 hmem2.1)
          (hraw pc.2 (List.mem_cons_of_mem first hmem2.2))

/-- **C3** (corrected).  Under the tokenizer laws, for non-empty input text
and `chunk_size ≥ 1`, *provided every separator-free atom of the text fits
within `chunk_size` tokens*, every chunk produced by `split_text` has a
final token count at most `chunk_size + chunk_overlap` and content that is
non-empty after whitespace stripping.  The atom proviso is the amendment:
the original unconditional claim fails because the space-level fallback of
`_split_text` emits any separator-free run as a single chunk regardless of
its token count (see `split_text_token_bound_counterexample`). -/
theorem split_text_token_bound {enc : Encoding} (hL : EncodingLaws enc)
    (text : Str) (chunk_size chunk_overlap : Nat)
    (htext : text ≠ []) (hcs : 1 ≤ chunk_size)
    (hatoms : ∀ a ∈ atoms (separators ++ [[' ']]) text,
      count_tokens enc a ≤ chunk_size) :
    ∀ ch ∈ split_text enc text chunk_size chunk_overlap,
      ch.token_count ≤ chunk_size + chunk_overlap ∧
      pyStrip ch.content ≠ [] := by
  intro ch hch
  simp only [split_text, List.mem_map] at hch
  obtain ⟨ic, hic, rfl⟩ := hch
  have hmem : ic.2 ∈ apply_overlap enc
      (splitTextRec enc chunk_size separators text) chunk_overlap := by
    have h2 := List.mem_map_of_mem Prod.snd hic
    rwa [List.enum_map_snd] at h2
  have hraw : ∀ r ∈ splitTextRec enc chunk_size separators text,
      count_tokens enc r ≤ chunk_size ∧ pyStrip r ≠ [] ∧ r ≠ [] := by
    intro r hr
    exact ⟨splitTextRec_le hL text.length text le_rfl separators hatoms r hr,
      (splitTextRec_form text.length text le_rfl separators r hr).1,
      (splitTextRec_form text.length text le_rfl separators r hr).2⟩
  exact apply_overlap_spec hL _ hraw ic.2 hmem

unseal splitTextRec pySplit in
/-- Witness for **C3**: on `"a b"` with `chunk_size = 1`,
`chunk_overlap = 1` under the concrete tokenizer `tokModel`, every atom
fits in one token, and the produced overlapped chunk `"a b"` obeys the
amended bound. -/
theorem split_text_token_bound_witness :
    (⟨"a b".toList, 1, 2⟩ : Chunk).token_count ≤ 1 + 1 ∧
    pyStrip (⟨"a b".toList, 1, 2⟩ : Chunk).content ≠ [] :=
  split_text_token_bound tokModel_laws "a b".toList 1 1 (by decide)
    (by decide) (by decide) ⟨"a b".toList, 1, 2⟩ (by decide)

unseal splitTextRec pySplit in
/-- Counterexample to the literal **C3**: the concrete tokenizer `tokModel`
satisfies the tokenizer laws, the text `"ab"` is non-empty,
`chunk_size = 1 ≥ 1` and `chunk_overlap = 0`, yet `split_text` emits the
separator-free run `"ab"` as a single chunk of 2 tokens,
exceeding `chunk_size + chunk_overlap = 1`. -/
theorem split_text_token_bound_counterexample :
    EncodingLaws tokModel ∧ "ab".toList ≠ [] ∧ 1 ≤ 1 ∧
    ¬ (∀ ch ∈ split_text tokModel "ab".toList 1 0,
        ch.token_count ≤ 1 + 0 ∧ pyStrip ch.content ≠ []) :=
  ⟨tokModel_laws, by decide, by decide, by decide⟩

/-- A concrete upload with an unsupported extension, for the C9 witness. -/
def fileW : UploadFileR :=
  ⟨some "a.exe", 1, [], .ok []⟩

unseal pySplit in
/-- Witness for **C9**: ingesting a file of unsupported type fails and
leaves the store untouched. -/
theorem ingest_document_atomic_witness :
    (ingest_document wCfg tokModel wOracle wDB fileW 1).2 = wDB :=
  (ingest_document_atomic wCfg tokModel wOracle wDB fileW 1).1
    DocErr.unsupportedType (by rfl)
